import Mathlib

/-!
Verification of the Delta snapshot/diff pipeline.

Shallow embedding of the core of the `delta` repository:
JSON values, the `JSON.stringify`-with-replacer serialization used by
`hashData` and `calculateSimilarity` (src/lib/hash.ts, src/lib/diff.ts),
the similarity score, the structural diff, the fixed-window rate limiter
(src/lib/rate-limit.ts), the snapshot ingestion pipeline
(src/services/snapshot.service.ts) and the delta worker retry discipline
(src/workers/delta.worker.ts together with the BullMQ queue options of
src/services/snapshot.service.ts).

Modelling conventions:
  - JSON numbers are modelled as integers (the concrete documents of the
    claims only use small integers, and the code never does arithmetic on
    document numbers - only equality and serialization matter).
  - JavaScript string escaping inside `JSON.stringify` is not modelled:
    the documents of the claims contain no characters needing escapes.
  - SHA-256 is modelled as the identity on the normalized serialization:
    the code only ever compares digests for equality, and equal inputs
    give equal digests.
-/

/-- JSON values, as handled by the TypeScript code. -/
inductive Json where
  | null : Json
  | bool (b : Bool) : Json
  | num (n : Int) : Json
  | str (s : String) : Json
  | arr (xs : List Json) : Json
  | obj (fields : List (String × Json)) : Json

mutual

/-- Structural (deep) equality of JSON values, as JavaScript deep-equal. -/
def Json.beq : Json → Json → Bool
  | .null, .null => true
  | .bool a, .bool b => a == b
  | .num a, .num b => a == b
  | .str a, .str b => a == b
  | .arr xs, .arr ys => Json.beqList xs ys
  | .obj fs, .obj gs => Json.beqFields fs gs
  | _, _ => false

/-- Pointwise equality of JSON arrays. -/
def Json.beqList : List Json → List Json → Bool
  | [], [] => true
  | x :: xs, y :: ys => Json.beq x y && Json.beqList xs ys
  | _, _ => false

/-- Pointwise equality of JSON object field lists. -/
def Json.beqFields : List (String × Json) → List (String × Json) → Bool
  | [], [] => true
  | (k, v) :: fs, (l, w) :: gs => k == l && Json.beq v w && Json.beqFields fs gs
  | _, _ => false

end

theorem Json.beq_iff : ∀ (a b : Json), Json.beq a b = true ↔ a = b := by
  have main : ∀ n, ∀ (a b : Json), sizeOf a ≤ n → (Json.beq a b = true ↔ a = b) := by
    intro n
    induction n with
    | zero => intro a; cases a <;> simp at *
    | succ n ih =>
      intro a b ha
      cases a <;> cases b <;> simp [Json.beq]
      case arr.arr xs ys =>
        have hxs : sizeOf xs ≤ n := by simp at ha; omega
        clear ha
        induction xs generalizing ys with
        | nil => cases ys <;> simp [Json.beqList]
        | cons x xs ihx =>
          cases ys with
          | nil => simp [Json.beqList]
          | cons y ys =>
            have h1 : sizeOf x ≤ n := by simp at hxs; omega
            have h2 : sizeOf xs ≤ n := by simp at hxs; omega
            simp [Json.beqList, ih x y h1, ihx ys h2]
      case obj.obj fs gs =>
        have hfs : sizeOf fs ≤ n := by simp at ha; omega
        clear ha
        induction fs generalizing gs with
        | nil => cases gs <;> simp [Json.beqFields]
        | cons f fs ihf =>
          cases gs with
          | nil => simp [Json.beqFields]
          | cons g gs =>
            obtain ⟨k, v⟩ := f
            obtain ⟨l, w⟩ := g
            have h1 : sizeOf v ≤ n := by simp at hfs; omega
            have h2 : sizeOf fs ≤ n := by simp at hfs; omega
            simp [Json.beqFields, ih v w h1, ihf gs h2, beq_iff_eq]
  intro a b
  exact main (sizeOf a) a b le_rfl

instance : DecidableEq Json :=
  fun a b => decidable_of_iff (Json.beq a b = true) (Json.beq_iff a b)

instance : BEq Json := ⟨Json.beq⟩

/-- Membership of a key among an object's fields (the `fields.any` check). -/
def hasKey (fields : List (String × Json)) (k : String) : Bool :=
  fields.any (fun p => p.1 == k)

/-- First value stored under key `k`; JavaScript property lookup. -/
def valueAt (fields : List (String × Json)) (k : String) : Json :=
  match fields.find? (fun p => p.1 == k) with
  | some p => p.2
  | none => Json.null

/-- Comma-join, the list part of `JSON.stringify`'s output assembly. -/
def joinComma : List String → String
  | [] => ""
  | [s] => s
  | s :: t => s ++ "," ++ joinComma t

/-- A double-quoted string, as `JSON.stringify` quotes keys and strings
(escaping not modelled, see the header). -/
def quoteStr (s : String) : String := "\"" ++ s ++ "\""

/-- Rendered value stored under key `k` (first match) in a list of
already-serialized fields. -/
def lookupRendered (l : List (String × String)) (k : String) : String :=
  match l.find? (fun q : String × String => q.1 == k) with
  | some p => p.2
  | none => "null"

/-- The `key:value` members an object contributes to `JSON.stringify`
output, given its already-serialized fields `r`.  With a replacer array
`pl`, the emitted keys are the members of `pl` present on the object, in
the order of `pl`; without one, the object's own keys in their own
order. -/
def renderKeys (pl : Option (List String)) (r : List (String × String)) : List String :=
  match pl with
  | some l => l.filter (fun k => r.any (fun q : String × String => q.1 == k))
  | none => r.map (fun q : String × String => q.1)

/-- Assemble the `key:value` members from the selected keys. -/
def renderEntries (pl : Option (List String)) (r : List (String × String)) : List String :=
  (renderKeys pl r).map (fun k => quoteStr k ++ ":" ++ lookupRendered r k)

mutual

/-- `JSON.stringify(v, pl?)`: serialization with an optional replacer
array `pl`.  With a replacer array, every object at every depth keeps
only the keys listed in `pl`, emitted in the order of `pl` - the
ECMAScript `SerializeJSONObject` semantics where the property list
replaces the object's own key order.  Arrays are never filtered. -/
def Json.stringify (pl : Option (List String)) : Json → String
  | .null => "null"
  | .bool b => cond b "true" "false"
  | .num n => toString n
  | .str s => quoteStr s
  | .arr xs => "[" ++ joinComma (Json.stringifyList pl xs) ++ "]"
  | .obj fs => "\x7b" ++ joinComma (renderEntries pl (Json.stringifyFields pl fs)) ++ "\x7d"

/-- Serialize every element of an array. -/
def Json.stringifyList (pl : Option (List String)) : List Json → List String
  | [] => []
  | x :: xs => Json.stringify pl x :: Json.stringifyList pl xs

/-- Serialize every field value of an object, keeping the keys. -/
def Json.stringifyFields (pl : Option (List String)) :
    List (String × Json) → List (String × String)
  | [] => []
  | (k, v) :: fs => (k, Json.stringify pl v) :: Json.stringifyFields pl fs

end

example : Json.stringify none (.obj [("a", .num 1), ("b", .arr [.null, .bool true])])
    = "\x7b\"a\":1,\"b\":[null,true]\x7d" := by decide

example : Json.stringify (some ["a"]) (.obj [("a", .obj [("b", .num 1)])])
    = "\x7b\"a\":\x7b\x7d\x7d" := by decide

/-- Code-unit order on two character sequences: the comparison JavaScript's
default `Array.prototype.sort` applies to the key strings (for the plain
ASCII keys appearing in JSON documents, code-unit order and codepoint order
agree). -/
def lexLe : List Char → List Char → Bool
  | [], _ => true
  | _ :: _, [] => false
  | a :: as, b :: bs =>
    if a < b then true
    else if b < a then false
    else lexLe as bs

/-- String comparison used to sort `Object.keys(data)`. -/
def strLe (a b : String) : Bool := lexLe a.data b.data

/-- `strLe` as a relation, for the sorting lemma library. -/
def strLeP (a b : String) : Prop := strLe a b = true

instance : DecidableRel strLeP :=
  fun a b => inferInstanceAs (Decidable (strLe a b = true))

theorem lexLe_total : ∀ a b : List Char, lexLe a b = true ∨ lexLe b a = true := by
  intro a
  induction a with
  | nil => intro b; left; rfl
  | cons x xs ih =>
    intro b
    cases b with
    | nil => right; rfl
    | cons y ys =>
      rcases lt_trichotomy x y with h | h | h
      · left; simp [lexLe, h]
      · subst h
        rcases ih ys with h2 | h2
        · left; simp [lexLe, lt_irrefl, h2]
        · right; simp [lexLe, lt_irrefl, h2]
      · right; simp [lexLe, h]

theorem lexLe_trans : ∀ a b c : List Char,
    lexLe a b = true → lexLe b c = true → lexLe a c = true := by
  intro a
  induction a with
  | nil => intro b c _ _; rfl
  | cons x xs ih =>
    intro b c hab hbc
    cases b with
    | nil => simp [lexLe] at hab
    | cons y ys =>
      cases c with
      | nil => simp [lexLe] at hbc
      | cons z zs =>
        simp only [lexLe] at hab hbc ⊢
        rcases lt_trichotomy x y with h1 | h1 | h1
        · rcases lt_trichotomy y z with h2 | h2 | h2
          · simp [lt_trans h1 h2]
          · subst h2; simp [h1]
          · simp [h1, asymm h1] at hab
            simp [h2, asymm h2] at hbc
        · subst h1
          rcases lt_trichotomy x z with h2 | h2 | h2
          · simp [h2]
          · subst h2
            simp [lt_irrefl] at hab hbc ⊢
            exact ih _ _ hab hbc
          · simp [lt_irrefl] at hab
            simp [h2, asymm h2] at hbc
        · simp [h1, asymm h1] at hab

theorem lexLe_antisymm : ∀ a b : List Char,
    lexLe a b = true → lexLe b a = true → a = b := by
  intro a
  induction a with
  | nil =>
    intro b _ hba
    cases b with
    | nil => rfl
    | cons y ys => simp [lexLe] at hba
  | cons x xs ih =>
    intro b hab hba
    cases b with
    | nil => simp [lexLe] at hab
    | cons y ys =>
      simp only [lexLe] at hab hba
      rcases lt_trichotomy x y with h | h | h
      · simp [h, asymm h] at hba
      · subst h
        simp [lt_irrefl] at hab hba
        rw [ih ys hab hba]
      · simp [h, asymm h] at hab

instance : IsTotal String strLeP :=
  ⟨fun a b => lexLe_total a.data b.data⟩

instance : IsTrans String strLeP :=
  ⟨fun a b c => lexLe_trans a.data b.data c.data⟩

theorem String.eq_of_data_eq : ∀ {a b : String}, a.data = b.data → a = b := by
  intro a b h
  cases a
  cases b
  exact congrArg String.mk h

instance : IsAntisymm String strLeP :=
  ⟨fun a b hab hba => String.eq_of_data_eq (lexLe_antisymm a.data b.data hab hba)⟩

/-- `Object.keys(data).sort()`. -/
def sortStrs (l : List String) : List String := List.insertionSort strLeP l

/-- `Object.keys(data)`: an object's own keys in their stored order; an
array's indices as decimal strings; no keys for primitives. -/
def Json.topKeys : Json → List String
  | .obj fs => fs.map (fun p => p.1)
  | .arr xs => (List.range xs.length).map (fun i => toString i)
  | _ => []

/-- `JSON.stringify(data, Object.keys(data).sort())`: the normalized
serialization that `hashData` hashes and `calculateSimilarity` compares
(src/lib/hash.ts line 102, src/lib/diff.ts lines 29-30). -/
def normalizedStringify (d : Json) : String :=
  Json.stringify (some (sortStrs d.topKeys)) d

/-- `hashData` (src/lib/hash.ts lines 101-104): SHA-256 of the normalized
serialization, hex-encoded.  The digest is modelled as the normalized
serialization itself: the pipeline only compares digests for equality, and
equal serializations give equal digests. -/
def hashData (d : Json) : String := normalizedStringify d

/-- Key order used when sorting an object's fields canonically. -/
def keyLeP (p q : String × Json) : Prop := strLeP p.1 q.1

instance : DecidableRel keyLeP :=
  fun p q => inferInstanceAs (Decidable (strLe p.1 q.1 = true))

/-- Sort an object's fields by key. -/
def sortFields (fs : List (String × Json)) : List (String × Json) :=
  List.insertionSort keyLeP fs

mutual

/-- Recursively key-sort every object of a document: the canonical
representative of its logical content. -/
def Json.canon : Json → Json
  | .obj fs => .obj (sortFields (Json.canonFields fs))
  | .arr xs => .arr (Json.canonList xs)
  | .null => .null
  | .bool b => .bool b
  | .num n => .num n
  | .str s => .str s

/-- Canonicalize every element of an array. -/
def Json.canonList : List Json → List Json
  | [] => []
  | x :: xs => Json.canon x :: Json.canonList xs

/-- Canonicalize every field value of an object. -/
def Json.canonFields : List (String × Json) → List (String × Json)
  | [] => []
  | (k, v) :: fs => (k, Json.canon v) :: Json.canonFields fs

end

/-- Modelled from the spec: the "canonical serialization" of section 4.2 -
"recursively key-sorted, content-preserving" - which the spec's similarity
contract refers to but which the code never computes. -/
def canonicalStringify (d : Json) : String := Json.stringify none d.canon

/-- All keys of the list pairwise distinct (JavaScript objects cannot hold
a key twice). -/
def keysDistinct : List String → Bool
  | [] => true
  | k :: t => !(t.any (fun x => x == k)) && keysDistinct t

mutual

/-- Well-formedness of a document as a parsed JavaScript value: every
object's keys are distinct, at every depth. -/
def Json.wf : Json → Bool
  | .obj fs => keysDistinct (fs.map (fun p => p.1)) && Json.wfFields fs
  | .arr xs => Json.wfList xs
  | .null => true
  | .bool _ => true
  | .num _ => true
  | .str _ => true

/-- Well-formedness of every element of an array. -/
def Json.wfList : List Json → Bool
  | [] => true
  | x :: xs => Json.wf x && Json.wfList xs

/-- Well-formedness of every field value of an object. -/
def Json.wfFields : List (String × Json) → Bool
  | [] => true
  | (_, v) :: fs => Json.wf v && Json.wfFields fs

end

/-- `getJsonSize` (src/lib/validation.ts): `Buffer.byteLength(JSON.stringify(data), "utf8")`. -/
def getJsonSize (d : Json) : Nat := (Json.stringify none d).utf8ByteSize

/-- Number of leading positions at which two character lists agree. -/
def commonPrefixLen : List Char → List Char → Nat
  | a :: as, b :: bs => if a = b then commonPrefixLen as bs + 1 else 0
  | _, _ => 0

/-- Length of the longest common suffix of two character lists. -/
def commonSuffixLen (a b : List Char) : Nat := commonPrefixLen a.reverse b.reverse

/-- Maximum of a list of naturals (0 for the empty list). -/
def natMaxList (l : List Nat) : Nat := l.foldr max 0

/-- All entries of the `longestCommonSubstring` DP table of
src/lib/diff.ts lines 48-68: `dp[i][j]` is the length of the longest
common suffix of `str1[0..i)` and `str2[0..j)` - zero when either prefix
is empty or the last characters differ, one more than `dp[i-1][j-1]` when
they agree, exactly the loop's recurrence. -/
def lcsTable (a b : List Char) : List Nat :=
  ((List.range (a.length + 1)).map (fun i =>
    (List.range (b.length + 1)).map (fun j =>
      commonSuffixLen (a.take i) (b.take j)))).flatten

/-- `longestCommonSubstring` (src/lib/diff.ts lines 48-68): the maximum
entry of the DP table (`maxLen` in the code). -/
def longestCommonSubstring (s1 s2 : String) : Nat := natMaxList (lcsTable s1.data s2.data)

/-- `calculateSimilarity` (src/lib/diff.ts lines 28-40).  Both documents
are serialized with their own sorted top-level key list as the replacer;
equal strings score 1, otherwise the longest-common-substring length is
divided by the longer length.  The JavaScript float division is modelled
as exact rational division (for realizable string lengths the float
comparison against 1 agrees with the rational one). -/
def calculateSimilarity (oldData newData : Json) : ℚ :=
  let oldStr := normalizedStringify oldData
  let newStr := normalizedStringify newData
  if oldStr = newStr then 1
  else
    let maxLen := max oldStr.length newStr.length
    if maxLen = 0 then 1
    else (longestCommonSubstring oldStr newStr : ℚ) / (maxLen : ℚ)

/-- Result of one rate-limit check (src/lib/rate-limit.ts lines 43-84);
`resetAt` is not modelled (it is `now + windowSize` wall-clock output with
no feedback into the pipeline). -/
structure RLResult where
  allowed : Bool
  remaining : Nat
  limit : Nat
deriving DecidableEq

/-- The response computed from the incremented counter value `count`:
`allowed = count <= limit`, `remaining = Math.max(0, limit - count)`
(natural subtraction is exactly the `Math.max(0, ...)` clamp). -/
def rlOnCount (limit count : Nat) : RLResult :=
  { allowed := decide (count ≤ limit), remaining := limit - count, limit := limit }

/-- `checkRateLimit` for a single call, with the outcome of the atomic
`redis.incr` injected: `some count` when the increment returned `count`,
`none` when it threw.  The catch branch fails open: the request is allowed
with the full limit remaining. -/
def checkRateLimit (limit : Nat) (incrResult : Option Nat) : RLResult :=
  match incrResult with
  | some count => rlOnCount limit count
  | none => { allowed := true, remaining := limit, limit := limit }

/-- One successful check against a live counter: `redis.incr` increments
and returns the new value. -/
def rateLimitStep (limit counter : Nat) : RLResult × Nat :=
  (rlOnCount limit (counter + 1), counter + 1)

/-- `k` consecutive successful checks for the same tenant and window,
starting from counter state `counter`. -/
def runChecks (limit : Nat) : Nat → Nat → List RLResult
  | 0, _ => []
  | k + 1, counter =>
    (rateLimitStep limit counter).1 :: runChecks limit k (rateLimitStep limit counter).2

/-- Default tier limits (src/lib/rate-limit.ts lines 25-29). -/
def rateLimitForTier : String → Nat
  | "free" => 100
  | "pro" => 1000
  | "enterprise" => 10000
  | _ => 0

/-- A stored snapshot row. -/
structure Snap where
  id : Nat
  endpoint_id : Nat
  timestamp : Int
  data : Json
  data_hash : String
  size_bytes : Nat
deriving DecidableEq

/-- A queued delta-computation job (the payload of `deltaQueue.add`). -/
structure DeltaJobMsg where
  snapshot_id : Nat
  endpoint_id : Nat
  previous_snapshot_id : Nat
deriving DecidableEq

/-- The value `createSnapshot` resolves with. -/
structure CreateSnapshotResult where
  snapshot : Snap
  isDuplicate : Bool
  queuedForDelta : Bool
deriving DecidableEq

/-- The externally visible side effects of one ingestion call. -/
structure IngestEffects where
  created : List Snap
  enqueued : List DeltaJobMsg
deriving DecidableEq

/-- The collaborator responses and clock for one ingestion call. -/
structure IngestEnv where
  maxSizeMB : Nat
  latest : Option Snap
  now : Int
  newId : Nat
  enqueueOk : Bool

/-- `createSnapshot` (src/services/snapshot.service.ts lines 53-115).
Returns `none` when the size check throws (`PayloadTooLarge`), otherwise
the result together with the rows created and jobs enqueued.  The
duplicate check is `latest !== null && latest.data_hash === dataHash &&
Date.now() - latest.timestamp.getTime() < 3600000`; the size check is
`checkJsonSize(data, maxSizeMB)`, i.e. byte length at most
`maxSizeMB * 1024 * 1024`; an enqueue failure is caught and leaves
`queuedForDelta = false`. -/
def createSnapshot (env : IngestEnv) (endpointId : Nat) (data : Json) :
    Option CreateSnapshotResult × IngestEffects :=
  if getJsonSize data > env.maxSizeMB * 1048576 then (none, ⟨[], []⟩) else
  let dataHash := hashData data
  match env.latest with
  | some l =>
    if l.data_hash == dataHash && decide (env.now - l.timestamp < 3600000) then
      (some ⟨l, true, false⟩, ⟨[], []⟩)
    else
      let snap : Snap := ⟨env.newId, endpointId, env.now, data, dataHash, getJsonSize data⟩
      if env.enqueueOk then
        (some ⟨snap, false, true⟩, ⟨[snap], [⟨snap.id, endpointId, l.id⟩]⟩)
      else
        (some ⟨snap, false, false⟩, ⟨[snap], []⟩)
  | none =>
    let snap : Snap := ⟨env.newId, endpointId, env.now, data, dataHash, getJsonSize data⟩
    (some ⟨snap, false, false⟩, ⟨[snap], []⟩)

/-- `storage.getSnapshot(endpointId, snapshotId)`: lookup by endpoint and
id in the snapshot store. -/
def getSnapshotStore (snaps : List Snap) (endpointId snapshotId : Nat) : Option Snap :=
  snaps.find? (fun s => s.endpoint_id == endpointId && s.id == snapshotId)

/-- The queue options of `deltaQueue` (src/services/snapshot.service.ts
lines 12-28): every job gets `attempts: 3` with exponential backoff,
regardless of why it fails. -/
def deltaJobAttempts : Nat := 3

/-- The configured backoff base delay in milliseconds. -/
def deltaJobBackoffBaseMs : Nat := 1000

/-- Exponential backoff: the delay doubles on each retry. -/
def backoffDelayMs (retryIndex : Nat) : Nat := deltaJobBackoffBaseMs * 2 ^ retryIndex

/-- The body of `computeDelta` (src/services/delta.service.ts lines
16-52) as run by the delta worker: fetch both snapshots, throw
`"One or both snapshots not found"` if either is missing, otherwise diff,
score and return the delta row fields the worker persists.  The worker
(src/workers/delta.worker.ts) re-throws every error to the queue. -/
def computeDeltaJob (snaps : List Snap) (fromId toId endpointId : Nat) :
    Except String (List Char × ℚ) :=
  match getSnapshotStore snaps endpointId fromId, getSnapshotStore snaps endpointId toId with
  | some f, some t =>
    .ok ((normalizedStringify f.data).data, calculateSimilarity f.data t.data)
  | _, _ => .error "One or both snapshots not found"

/-- BullMQ's processing discipline for one job with `attempts = n`: run
the handler; a successful run completes the job, a thrown error consumes
one attempt and the job is retried (after backoff) until the attempts are
exhausted, at which point it is moved to the failed set (dead letter,
retained per `removeOnFail`).  Returns the number of attempts made and
the result, `none` meaning dead-lettered. -/
def runJobGo (run : Unit → Except String A) : Nat → Nat → Nat × Option A
  | 0, made => (made, none)
  | n + 1, made =>
    match run () with
    | .ok a => (made + 1, some a)
    | .error _ => runJobGo run n (made + 1)

/-- Run one queued job under the queue's attempt budget. -/
def runJob (attempts : Nat) (run : Unit → Except String A) : Nat × Option A :=
  runJobGo run attempts 0

theorem runChecks_get (limit : Nat) :
    ∀ (k n counter : Nat), n < k →
      (runChecks limit k counter).get? n = some (rlOnCount limit (counter + n + 1)) := by
  intro k
  induction k with
  | zero => intro n counter h; omega
  | succ k ih =>
    intro n counter h
    cases n with
    | zero => simp [runChecks, rateLimitStep]
    | succ n =>
      have hn : n < k := by omega
      have := ih n (counter + 1) hn
      simp only [runChecks, rateLimitStep, List.get?_cons_succ]
      rw [this]
      congr 2
      omega

/-- C7: for consecutive rate-limit checks on the same tenant and window
with no storage failure, the n-th check (counting from 0, counter fresh)
returns `allowed = (n+1 <= limit)` and `remaining = max(0, limit-(n+1))`;
with limit 3 the four consecutive checks give allowed
[true,true,true,false] and remaining [2,1,0,0]. -/
theorem rateLimit_nth_check (limit k n : Nat) (h : n < k) :
    (runChecks limit k 0).get? n =
      some { allowed := decide (n + 1 ≤ limit), remaining := limit - (n + 1), limit := limit } := by
  have := runChecks_get limit k n 0 h
  simpa [rlOnCount] using this

theorem rateLimit_nth_check_witness :
    (3 : Nat) < 4 ∧ (runChecks 3 4 0).get? 3 =
      some { allowed := decide (3 + 1 ≤ 3), remaining := 3 - (3 + 1), limit := 3 } :=
  ⟨by decide, rateLimit_nth_check 3 4 3 (by decide)⟩

example : runChecks 3 4 0 =
    [⟨true, 2, 3⟩, ⟨true, 1, 3⟩, ⟨true, 0, 3⟩, ⟨false, 0, 3⟩] := by decide

/-- C8: when the atomic increment fails (the `redis.incr` call throws),
`checkRateLimit` fails open: the request is allowed with `remaining`
equal to the full tier limit, and no error is propagated. -/
theorem rateLimit_fail_open (limit : Nat) :
    checkRateLimit limit none = { allowed := true, remaining := limit, limit := limit } := rfl

/-- C4: when the endpoint's most recent snapshot exists, its stored hash
equals the hash of the incoming data and its timestamp is within one hour
of now, ingestion returns that previous snapshot with `isDuplicate = true`
and `queuedForDelta = false`, creates no row and enqueues no job. -/
theorem ingest_duplicate (env : IngestEnv) (endpointId : Nat) (data : Json) (l : Snap)
    (hsize : getJsonSize data ≤ env.maxSizeMB * 1048576)
    (hlatest : env.latest = some l)
    (hhash : l.data_hash = hashData data)
    (h0 : 0 ≤ env.now - l.timestamp)
    (h1 : env.now - l.timestamp < 3600000) :
    createSnapshot env endpointId data = (some ⟨l, true, false⟩, ⟨[], []⟩) := by
  unfold createSnapshot
  rw [if_neg (by omega)]
  rw [hlatest]
  simp [hhash, h1]

theorem ingest_duplicate_witness :
    (getJsonSize (Json.obj [("foo", Json.num 1)]) ≤ 10 * 1048576 ∧
      (0 : Int) ≤ 1000 - 0 ∧ (1000 : Int) - 0 < 3600000) ∧
    createSnapshot
        ⟨10, some ⟨1, 7, 0, Json.obj [("foo", Json.num 1)],
          hashData (Json.obj [("foo", Json.num 1)]), 9⟩, 1000, 2, true⟩ 7
        (Json.obj [("foo", Json.num 1)]) =
      (some ⟨⟨1, 7, 0, Json.obj [("foo", Json.num 1)],
        hashData (Json.obj [("foo", Json.num 1)]), 9⟩, true, false⟩, ⟨[], []⟩) :=
  ⟨⟨by decide, by decide, by decide⟩,
    ingest_duplicate _ 7 _ _ (by decide) rfl rfl (by decide) (by decide)⟩

/-- C10: when ingestion persists a new snapshot and the delta-job enqueue
then fails, the failure is swallowed: the call still returns the new
snapshot with `isDuplicate = false` and `queuedForDelta = false`, and the
created row stands with no job enqueued. -/
theorem ingest_enqueue_failure_swallowed (env : IngestEnv) (endpointId : Nat) (data : Json)
    (l : Snap)
    (hsize : getJsonSize data ≤ env.maxSizeMB * 1048576)
    (hlatest : env.latest = some l)
    (hnew : ¬(l.data_hash = hashData data ∧ env.now - l.timestamp < 3600000))
    (henq : env.enqueueOk = false) :
    createSnapshot env endpointId data =
      (some ⟨⟨env.newId, endpointId, env.now, data, hashData data, getJsonSize data⟩,
        false, false⟩,
       ⟨[⟨env.newId, endpointId, env.now, data, hashData data, getJsonSize data⟩], []⟩) := by
  unfold createSnapshot
  rw [if_neg (by omega)]
  rw [hlatest]
  have hcond : (l.data_hash == hashData data
      && decide (env.now - l.timestamp < 3600000)) = false := by
    rcases Decidable.em (l.data_hash = hashData data) with h | h
    · have h2 : ¬(env.now - l.timestamp < 3600000) := fun hc => hnew ⟨h, hc⟩
      simp [h, h2]
    · simp [h]
  simp [hcond, henq]

theorem ingest_enqueue_failure_swallowed_witness :
    (getJsonSize (Json.obj [("foo", Json.num 2)]) ≤ 10 * 1048576 ∧
      ¬("other" = hashData (Json.obj [("foo", Json.num 2)]) ∧ (1000 : Int) - 0 < 3600000)) ∧
    createSnapshot ⟨10, some ⟨1, 7, 0, Json.null, "other", 4⟩, 1000, 2, false⟩ 7
        (Json.obj [("foo", Json.num 2)]) =
      (some ⟨⟨2, 7, 1000, Json.obj [("foo", Json.num 2)],
        hashData (Json.obj [("foo", Json.num 2)]), getJsonSize (Json.obj [("foo", Json.num 2)])⟩,
        false, false⟩,
       ⟨[⟨2, 7, 1000, Json.obj [("foo", Json.num 2)],
        hashData (Json.obj [("foo", Json.num 2)]), getJsonSize (Json.obj [("foo", Json.num 2)])⟩],
        []⟩) :=
  ⟨⟨by decide, by decide⟩,
    ingest_enqueue_failure_swallowed _ 7 _ _ (by decide) rfl (by decide) rfl⟩

/-- C1 counterexample: a job whose two snapshot ids are absent from the
store is not dead-lettered on its first attempt: under the queue options
of src/services/snapshot.service.ts (`attempts: 3` for every job, with
the worker re-throwing every error indiscriminately) the job is attempted
3 times - i.e. retried twice with backoff - before dead-lettering, so the
`SnapshotNotFound` failure is subject to the same 3-attempt retry policy
as any transient failure. -/
theorem worker_missing_snapshot_retried :
    runJob deltaJobAttempts (fun _ => computeDeltaJob [] 1 2 7) = (3, none) ∧ (3 : Nat) ≠ 1 :=
  ⟨by decide, by decide⟩

/-- C1 (amended): a job referencing a missing snapshot fails every
attempt with the `"One or both snapshots not found"` error, is retried
under the uniform 3-attempt exponential-backoff policy like any other
failure, and is dead-lettered only after those 3 attempts. -/
theorem worker_missing_snapshot_deadletter (snaps : List Snap) (fromId toId endpointId : Nat)
    (h : getSnapshotStore snaps endpointId fromId = none ∨
         getSnapshotStore snaps endpointId toId = none) :
    runJob deltaJobAttempts (fun _ => computeDeltaJob snaps fromId toId endpointId) = (3, none) := by
  have herr : computeDeltaJob snaps fromId toId endpointId =
      .error "One or both snapshots not found" := by
    unfold computeDeltaJob
    rcases hf : getSnapshotStore snaps endpointId fromId with _ | f <;>
      rcases ht : getSnapshotStore snaps endpointId toId with _ | t <;>
      first
        | rfl
        | (rcases h with h | h <;> simp_all)
  simp [runJob, runJobGo, deltaJobAttempts, herr]

theorem worker_missing_snapshot_deadletter_witness :
    (getSnapshotStore [] 7 1 = none ∨ getSnapshotStore [] 7 2 = none) ∧
      runJob deltaJobAttempts (fun _ => computeDeltaJob [] 1 2 7) = (3, none) :=
  ⟨Or.inl rfl, worker_missing_snapshot_deadletter [] 1 2 7 (Or.inl rfl)⟩

/-- First document of the nested-hash-collision pair. -/
def docNested1 : Json := .obj [("a", .obj [("b", .num 1)])]

/-- Second document: same shape, different nested value. -/
def docNested2 : Json := .obj [("a", .obj [("b", .num 2)])]

/-- The stored snapshot holding `docNested1`. -/
def hashCollisionSnap : Snap :=
  ⟨1, 7, 0, docNested1, hashData docNested1, getJsonSize docNested1⟩

/-- An ingestion environment whose latest snapshot is `hashCollisionSnap`,
with the clock inside the dedup window. -/
def hashCollisionEnv : IngestEnv :=
  { maxSizeMB := 10, latest := some hashCollisionSnap, now := 1000, newId := 2, enqueueOk := true }

/-- C3: `hashData` passes the sorted top-level key list as a
`JSON.stringify` replacer array, which filters keys at every depth, so
the nested documents `docNested1` and `docNested2` - logically different,
with different canonical serializations - get the same digest, and
ingesting `docNested2` over a stored `docNested1` within the dedup window
reports `isDuplicate = true` and creates no new snapshot row. -/
theorem hashData_nested_collision :
    hashData docNested1 = hashData docNested2 ∧
    docNested1 ≠ docNested2 ∧
    canonicalStringify docNested1 ≠ canonicalStringify docNested2 ∧
    createSnapshot hashCollisionEnv 7 docNested2 =
      (some ⟨hashCollisionSnap, true, false⟩, ⟨[], []⟩) := by
  refine ⟨by decide, by decide, by decide, by decide⟩

theorem commonPrefixLen_le_left : ∀ a b : List Char, commonPrefixLen a b ≤ a.length := by
  intro a
  induction a with
  | nil => intro b; cases b <;> simp [commonPrefixLen]
  | cons x xs ih =>
    intro b
    cases b with
    | nil => simp [commonPrefixLen]
    | cons y ys =>
      by_cases h : x = y <;> simp [commonPrefixLen, h]
      have := ih ys
      omega

theorem commonPrefixLen_le_right : ∀ a b : List Char, commonPrefixLen a b ≤ b.length := by
  intro a
  induction a with
  | nil => intro b; cases b <;> simp [commonPrefixLen]
  | cons x xs ih =>
    intro b
    cases b with
    | nil => simp [commonPrefixLen]
    | cons y ys =>
      by_cases h : x = y <;> simp [commonPrefixLen, h]
      have := ih ys
      omega

theorem commonPrefixLen_full : ∀ a b : List Char,
    commonPrefixLen a b = a.length → a.length = b.length → a = b := by
  intro a
  induction a with
  | nil =>
    intro b _ hlen
    cases b with
    | nil => rfl
    | cons y ys => simp at hlen
  | cons x xs ih =>
    intro b hfull hlen
    cases b with
    | nil => simp at hlen
    | cons y ys =>
      by_cases h : x = y
      · subst h
        simp [commonPrefixLen] at hfull hlen
        rw [ih ys hfull hlen]
      · simp [commonPrefixLen, h] at hfull

theorem commonSuffixLen_le_left (a b : List Char) : commonSuffixLen a b ≤ a.length := by
  unfold commonSuffixLen
  have := commonPrefixLen_le_left a.reverse b.reverse
  simpa using this

theorem commonSuffixLen_le_right (a b : List Char) : commonSuffixLen a b ≤ b.length := by
  unfold commonSuffixLen
  have := commonPrefixLen_le_right a.reverse b.reverse
  simpa using this

theorem natMaxList_le {m : Nat} : ∀ {l : List Nat}, (∀ x ∈ l, x ≤ m) → natMaxList l ≤ m := by
  intro l
  induction l with
  | nil => intro _; simp [natMaxList]
  | cons x t ih =>
    intro h
    simp only [natMaxList, List.foldr_cons]
    have h1 : x ≤ m := h x (by simp)
    have h2 : natMaxList t ≤ m := ih (fun y hy => h y (by simp [hy]))
    simp only [natMaxList] at h2
    omega

theorem natMaxList_mem : ∀ l : List Nat, natMaxList l = 0 ∨ natMaxList l ∈ l := by
  intro l
  induction l with
  | nil => left; rfl
  | cons x t ih =>
    simp only [natMaxList, List.foldr_cons]
    rcases le_total x (List.foldr max 0 t) with h | h
    · rcases ih with h0 | hmem
      · simp only [natMaxList] at h0
        rw [h0] at h ⊢
        right
        have hx : x = 0 := by omega
        subst hx
        simp
      · rw [Nat.max_eq_right h]
        right
        exact List.mem_cons_of_mem x hmem
    · rw [Nat.max_eq_left h]
      right
      simp

theorem lcsTable_entry_le (a b : List Char) (x : Nat) (hx : x ∈ lcsTable a b) :
    x ≤ a.length ∧ x ≤ b.length := by
  unfold lcsTable at hx
  rw [List.mem_flatten] at hx
  obtain ⟨row, hrow, hxrow⟩ := hx
  rw [List.mem_map] at hrow
  obtain ⟨i, _, rfl⟩ := hrow
  rw [List.mem_map] at hxrow
  obtain ⟨j, _, rfl⟩ := hxrow
  constructor
  · have h1 := commonSuffixLen_le_left (a.take i) (b.take j)
    have h2 : (a.take i).length ≤ a.length := by simp [List.length_take]
    omega
  · have h1 := commonSuffixLen_le_right (a.take i) (b.take j)
    have h2 : (b.take j).length ≤ b.length := by simp [List.length_take]
    omega

theorem lcsMax_lt_of_ne (a b : List Char) (hne : a ≠ b)
    (hpos : 0 < max a.length b.length) :
    natMaxList (lcsTable a b) < max a.length b.length := by
  rcases Nat.lt_or_ge (natMaxList (lcsTable a b)) (max a.length b.length) with h | h
  · exact h
  · exfalso
    have hub : natMaxList (lcsTable a b) ≤ min a.length b.length :=
      natMaxList_le (fun x hx =>
        le_min (lcsTable_entry_le a b x hx).1 (lcsTable_entry_le a b x hx).2)
    have hlen : a.length = b.length := by omega
    have hv : natMaxList (lcsTable a b) = a.length := by omega
    rcases natMaxList_mem (lcsTable a b) with h0 | hmem
    · omega
    · rw [hv] at hmem
      unfold lcsTable at hmem
      rw [List.mem_flatten] at hmem
      obtain ⟨row, hrow, hLrow⟩ := hmem
      rw [List.mem_map] at hrow
      obtain ⟨i, hi, rfl⟩ := hrow
      rw [List.mem_map] at hLrow
      obtain ⟨j, hj, hentry⟩ := hLrow
      rw [List.mem_range] at hi hj
      have hle1 := commonSuffixLen_le_left (a.take i) (b.take j)
      have hle2 := commonSuffixLen_le_right (a.take i) (b.take j)
      have hlt1 : (a.take i).length = min i a.length := List.length_take ..
      have hlt2 : (b.take j).length = min j b.length := List.length_take ..
      have hieq : i = a.length := by omega
      have hjeq : j = b.length := by omega
      rw [hieq, hjeq, List.take_length, List.take_length] at hentry
      unfold commonSuffixLen at hentry
      have hfull : a.reverse = b.reverse := by
        apply commonPrefixLen_full a.reverse b.reverse
        · rw [hentry]; simp
        · simp [hlen]
      exact hne (List.reverse_injective hfull)

/-- C2 counterexample: two documents with different canonical
serializations for which `calculateSimilarity` nevertheless returns 1.0,
because the code compares replacer-filtered serializations, not canonical
ones: nested keys outside the top-level key list are dropped. -/
theorem similarity_one_without_canonical_eq :
    calculateSimilarity docNested1 docNested2 = 1 ∧
    canonicalStringify docNested1 ≠ canonicalStringify docNested2 :=
  ⟨by decide, by decide⟩

/-- C2 (amended): `calculateSimilarity` returns 1.0 exactly when the two
serializations it actually compares - `JSON.stringify(doc,
Object.keys(doc).sort())` for each document, which filters nested keys by
the top-level key list rather than canonicalizing - are identical, and is
always at most 1 (hence strictly below 1 whenever those serializations
differ); canonical-serialization equality is neither necessary nor
sufficient beyond that. -/
theorem calculateSimilarity_one_iff (a b : Json) :
    (calculateSimilarity a b = 1 ↔ normalizedStringify a = normalizedStringify b) ∧
    calculateSimilarity a b ≤ 1 := by
  unfold calculateSimilarity
  by_cases h : normalizedStringify a = normalizedStringify b
  · simp [h]
  · rw [if_neg h]
    have hd : (normalizedStringify a).data ≠ (normalizedStringify b).data :=
      fun hc => h (String.eq_of_data_eq hc)
    by_cases hm : max (normalizedStringify a).length (normalizedStringify b).length = 0
    · exfalso
      have h1 : (normalizedStringify a).length = 0 := by omega
      have h2 : (normalizedStringify b).length = 0 := by omega
      have h1d : (normalizedStringify a).data.length = 0 := h1
      have h2d : (normalizedStringify b).data.length = 0 := h2
      exact hd ((List.length_eq_zero.mp h1d).trans (List.length_eq_zero.mp h2d).symm)
    · rw [if_neg hm]
      have hmd : 0 < max (normalizedStringify a).data.length (normalizedStringify b).data.length :=
        Nat.pos_of_ne_zero hm
      have hlt : longestCommonSubstring (normalizedStringify a) (normalizedStringify b) <
          max (normalizedStringify a).length (normalizedStringify b).length :=
        lcsMax_lt_of_ne (normalizedStringify a).data (normalizedStringify b).data hd hmd
      set L := max (normalizedStringify a).length (normalizedStringify b).length with hL
      set c := longestCommonSubstring (normalizedStringify a) (normalizedStringify b) with hc
      have hLpos : (0 : ℚ) < (L : ℚ) := by
        have : 0 < L := by omega
        exact_mod_cast this
      have hclt : (c : ℚ) < (L : ℚ) := by exact_mod_cast hlt
      constructor
      · constructor
        · intro he
          rw [div_eq_one_iff_eq (ne_of_gt hLpos)] at he
          exact absurd he (ne_of_lt hclt)
        · intro hc2
          exact absurd hc2 h
      · rw [div_le_one hLpos]
        exact le_of_lt hclt

theorem keys_canonFields : ∀ fs : List (String × Json),
    (Json.canonFields fs).map (fun p => p.1) = fs.map (fun p => p.1) := by
  intro fs
  induction fs with
  | nil => rfl
  | cons f t ih =>
    obtain ⟨k, v⟩ := f
    simp [Json.canonFields, ih]

theorem mem_canonFields {k : String} {w : Json} : ∀ {fs : List (String × Json)},
    (k, w) ∈ Json.canonFields fs ↔ ∃ v, (k, v) ∈ fs ∧ w = Json.canon v := by
  intro fs
  induction fs with
  | nil => simp [Json.canonFields]
  | cons f t ih =>
    obtain ⟨k2, v2⟩ := f
    simp only [Json.canonFields, List.mem_cons, ih, Prod.mk.injEq]
    constructor
    · rintro (⟨hk, hw⟩ | ⟨v, hv, hw⟩)
      · exact ⟨v2, Or.inl ⟨hk.symm ▸ rfl, rfl⟩, hw⟩
      · exact ⟨v, Or.inr hv, hw⟩
    · rintro ⟨v, hv | hv, hw⟩
      · obtain ⟨hk, hv2⟩ := hv
        subst hk
        subst hv2
        exact Or.inl ⟨rfl, hw⟩
      · exact Or.inr ⟨v, hv, hw⟩

theorem keys_stringifyFields (pl : Option (List String)) : ∀ fs : List (String × Json),
    (Json.stringifyFields pl fs).map (fun p => p.1) = fs.map (fun p => p.1) := by
  intro fs
  induction fs with
  | nil => rfl
  | cons f t ih =>
    obtain ⟨k, v⟩ := f
    simp [Json.stringifyFields, ih]

theorem find?_stringifyFields (pl : Option (List String)) (k : String) :
    ∀ fs : List (String × Json),
    (Json.stringifyFields pl fs).find? (fun q => q.1 == k) =
      ((fs.find? (fun q => q.1 == k)).map
        (fun p => (p.1, Json.stringify pl p.2))) := by
  intro fs
  induction fs with
  | nil => rfl
  | cons f t ih =>
    obtain ⟨k2, v2⟩ := f
    by_cases h : k2 = k
    · subst h
      simp [Json.stringifyFields, List.find?_cons_of_pos]
    · have hb : (k2 == k) = false := by simp [h]
      simp only [Json.stringifyFields]
      rw [List.find?_cons_of_neg, List.find?_cons_of_neg]
      · exact ih
      · simp [hb]
      · simp [hb]

theorem hasKey_iff {fs : List (String × Json)} {k : String} :
    hasKey fs k = true ↔ k ∈ fs.map (fun p => p.1) := by
  simp [hasKey, List.any_eq_true]

theorem valueAt_mem {fs : List (String × Json)} {k : String}
    (h : hasKey fs k = true) : (k, valueAt fs k) ∈ fs := by
  unfold valueAt
  rw [hasKey] at h
  rw [List.any_eq_true] at h
  obtain ⟨p, hp, he⟩ := h
  have : ∃ q, fs.find? (fun q => q.1 == k) = some q := by
    rcases hf : fs.find? (fun q => q.1 == k) with _ | q
    · exfalso
      have := List.find?_eq_none.mp hf p hp
      simp_all
    · exact ⟨q, hf⟩
  obtain ⟨q, hq⟩ := this
  rw [hq]
  have hqm := List.mem_of_find?_eq_some hq
  have hqk := List.find?_some hq
  have : q.1 = k := by simpa using hqk
  rw [← this]
  exact hqm

theorem valueAt_eq_of_mem {fs : List (String × Json)} {k : String} {v : Json}
    (hdk : keysDistinct (fs.map (fun p => p.1)) = true)
    (hm : (k, v) ∈ fs) : valueAt fs k = v := by
  induction fs with
  | nil => simp at hm
  | cons f t ih =>
    obtain ⟨k2, v2⟩ := f
    simp only [List.map_cons, keysDistinct, Bool.and_eq_true, Bool.not_eq_true'] at hdk
    obtain ⟨hnc, hdt⟩ := hdk
    rcases List.mem_cons.mp hm with he | ht
    · cases he
      simp [valueAt]
    · have hkmem : k ∈ t.map (fun p => p.1) := List.mem_map.mpr ⟨(k, v), ht, rfl⟩
      have hk2 : (k2 == k) = false := by
        rcases Decidable.em (k2 = k) with h | h
        · exfalso
          have hcontra : (t.map (fun p => p.1)).any (fun x => x == k2) = true :=
            List.any_eq_true.mpr ⟨k, hkmem, by simp [h]⟩
          rw [hcontra] at hnc
          cases hnc
        · simp [h]
      unfold valueAt
      rw [List.find?_cons_of_neg]
      · exact ih hdt ht
      · simp [hk2]

theorem wfFields_mem : ∀ (fs : List (String × Json)), Json.wfFields fs = true →
    ∀ (k : String) (v : Json), (k, v) ∈ fs → Json.wf v = true := by
  intro fs
  induction fs with
  | nil => intro _ k v hm; simp at hm
  | cons f t ih =>
    intro h k v hm
    obtain ⟨k2, v2⟩ := f
    simp only [Json.wfFields, Bool.and_eq_true] at h
    rcases List.mem_cons.mp hm with he | ht
    · cases he; exact h.1
    · exact ih h.2 k v ht

theorem canonList_length : ∀ xs : List Json, (Json.canonList xs).length = xs.length := by
  intro xs
  induction xs with
  | nil => rfl
  | cons x t ih => simp [Json.canonList, ih]

theorem perm_of_sortFields_eq (fa fb : List (String × Json))
    (h : sortFields fa = sortFields fb) : List.Perm fa fb := by
  have h1 : List.Perm (sortFields fa) fa := List.perm_insertionSort keyLeP fa
  have h2 : List.Perm (sortFields fb) fb := List.perm_insertionSort keyLeP fb
  exact h1.symm.trans (h ▸ h2)

theorem sortStrs_eq_of_perm (la lb : List String) (h : List.Perm la lb) :
    sortStrs la = sortStrs lb := by
  exact List.eq_of_perm_of_sorted
    ((List.perm_insertionSort strLeP la).trans (h.trans (List.perm_insertionSort strLeP lb).symm))
    (List.sorted_insertionSort strLeP la)
    (List.sorted_insertionSort strLeP lb)

theorem any_stringifyFields (pl : Option (List String)) (k : String) :
    ∀ fs : List (String × Json),
    ((Json.stringifyFields pl fs).any (fun q => q.1 == k)) = hasKey fs k := by
  intro fs
  induction fs with
  | nil => rfl
  | cons f t ih =>
    obtain ⟨k2, v2⟩ := f
    simp only [Json.stringifyFields, List.any_cons, hasKey] at ih ⊢
    rw [ih]

theorem lookupRendered_eq (pl : Option (List String)) (fs : List (String × Json)) (k : String) :
    lookupRendered (Json.stringifyFields pl fs) k = Json.stringify pl (valueAt fs k) := by
  unfold lookupRendered valueAt
  rw [find?_stringifyFields]
  rcases hf : fs.find? (fun q => q.1 == k) with _ | p
  · simp only [hf]
    rfl
  · simp only [hf]
    rfl

theorem stringify_canon_eq : ∀ (n : Nat) (a b : Json) (pl : List String), sizeOf a ≤ n →
    Json.wf a = true → Json.wf b = true → Json.canon a = Json.canon b →
    Json.stringify (some pl) a = Json.stringify (some pl) b := by
  intro n
  induction n with
  | zero => intro a; cases a <;> intro b pl h <;> simp at h
  | succ n ih =>
    intro a b pl hsz hwa hwb hc
    cases a <;> cases b <;> simp [Json.canon] at hc
    case null.null => rfl
    case bool.bool => rw [hc]
    case num.num => rw [hc]
    case str.str => rw [hc]
    case arr.arr xs ys =>
      have hlist : ∀ (xs2 ys2 : List Json), sizeOf xs2 ≤ n → Json.wfList xs2 = true →
          Json.wfList ys2 = true → Json.canonList xs2 = Json.canonList ys2 →
          Json.stringifyList (some pl) xs2 = Json.stringifyList (some pl) ys2 := by
        intro xs2
        induction xs2 with
        | nil =>
          intro ys2 _ _ _ hcc
          cases ys2 with
          | nil => rfl
          | cons y ys => simp [Json.canonList] at hcc
        | cons x xs ihx =>
          intro ys2 hs hw1 hw2 hcc
          cases ys2 with
          | nil => simp [Json.canonList] at hcc
          | cons y ys =>
            simp only [Json.canonList] at hcc
            injection hcc with hc1 hc2
            simp only [Json.wfList, Bool.and_eq_true] at hw1 hw2
            simp only [Json.stringifyList]
            rw [ih x y pl (by simp at hs; omega) hw1.1 hw2.1 hc1]
            rw [ihx ys (by simp at hs; omega) hw1.2 hw2.2 hc2]
      simp only [Json.stringify]
      rw [hlist xs ys (by simp at hsz; omega)
        (by simpa [Json.wf] using hwa) (by simpa [Json.wf] using hwb) hc]
    case obj.obj fs gs =>
      have hperm : List.Perm (Json.canonFields fs) (Json.canonFields gs) :=
        perm_of_sortFields_eq _ _ hc
      have hkeysperm : List.Perm (fs.map (fun p => p.1)) (gs.map (fun p => p.1)) := by
        have := hperm.map (fun p => p.1)
        rwa [keys_canonFields, keys_canonFields] at this
      simp only [Json.wf, Bool.and_eq_true] at hwa hwb
      have hkeys : renderKeys (some pl) (Json.stringifyFields (some pl) fs)
          = renderKeys (some pl) (Json.stringifyFields (some pl) gs) := by
        simp only [renderKeys]
        apply List.filter_congr
        intro k _
        rw [any_stringifyFields, any_stringifyFields]
        have hiff : hasKey fs k = true ↔ hasKey gs k = true := by
          rw [hasKey_iff, hasKey_iff]
          exact hkeysperm.mem_iff
        rcases h1 : hasKey fs k with _ | _ <;> rcases h2 : hasKey gs k with _ | _ <;> simp_all
      have hmap : ∀ k ∈ renderKeys (some pl) (Json.stringifyFields (some pl) gs),
          quoteStr k ++ ":" ++ lookupRendered (Json.stringifyFields (some pl) fs) k
          = quoteStr k ++ ":" ++ lookupRendered (Json.stringifyFields (some pl) gs) k := by
        intro k hk
        have hin : hasKey gs k = true := by
          simp only [renderKeys, List.mem_filter] at hk
          have := hk.2
          rwa [any_stringifyFields] at this
        have hinf : hasKey fs k = true := by
          rw [hasKey_iff] at hin ⊢
          exact hkeysperm.mem_iff.mpr hin
        have hmemf : (k, valueAt fs k) ∈ fs := valueAt_mem hinf
        have hmemg : (k, valueAt gs k) ∈ gs := valueAt_mem hin
        have hcf : (k, Json.canon (valueAt fs k)) ∈ Json.canonFields fs :=
          mem_canonFields.mpr ⟨_, hmemf, rfl⟩
        have hcg : (k, Json.canon (valueAt fs k)) ∈ Json.canonFields gs :=
          hperm.mem_iff.mp hcf
        obtain ⟨v, hvg, hveq⟩ := mem_canonFields.mp hcg
        have hvAt : valueAt gs k = v := valueAt_eq_of_mem hwb.1 hvg
        have hcanon2 : Json.canon (valueAt fs k) = Json.canon (valueAt gs k) := by
          rw [hvAt]; exact hveq
        have hwfv1 : Json.wf (valueAt fs k) = true := wfFields_mem fs hwa.2 k _ hmemf
        have hwfv2 : Json.wf (valueAt gs k) = true := wfFields_mem gs hwb.2 k _ hmemg
        have hszv : sizeOf (valueAt fs k) ≤ n := by
          have h1 := List.sizeOf_lt_of_mem hmemf
          have h2 : sizeOf (k, valueAt fs k) = 1 + sizeOf k + sizeOf (valueAt fs k) := rfl
          have h3 : sizeOf (Json.obj fs) = 1 + sizeOf fs := by simp
          omega
        rw [lookupRendered_eq, lookupRendered_eq,
          ih (valueAt fs k) (valueAt gs k) pl hszv hwfv1 hwfv2 hcanon2]
      simp only [Json.stringify, renderEntries]
      rw [hkeys, List.map_congr_left hmap]

/-- C5: `hashData` is independent of key insertion order at every nesting
depth: two well-formed documents with the same canonical form (the same
logical content up to object key permutation, at any depth) get the same
digest.  Despite the nested-key filtering of C3, the output is
order-independent: the emitted keys and their order come from the sorted
top-level key list, never from insertion order. -/
theorem hashData_key_order_independent (a b : Json)
    (hwa : Json.wf a = true) (hwb : Json.wf b = true)
    (hcanon : Json.canon a = Json.canon b) :
    hashData a = hashData b := by
  unfold hashData normalizedStringify
  have hkeys : sortStrs (Json.topKeys a) = sortStrs (Json.topKeys b) := by
    cases a <;> cases b <;> simp [Json.canon] at hcanon
    case null.null => rfl
    case bool.bool => rw [hcanon]
    case num.num => rw [hcanon]
    case str.str => rw [hcanon]
    case arr.arr xs ys =>
      have hlen : xs.length = ys.length := by
        have := congrArg List.length hcanon
        rwa [canonList_length, canonList_length] at this
      simp [Json.topKeys, hlen]
    case obj.obj fs gs =>
      apply sortStrs_eq_of_perm
      have hperm := perm_of_sortFields_eq _ _ hcanon
      have := hperm.map (fun p => p.1)
      rwa [keys_canonFields, keys_canonFields] at this
  rw [hkeys]
  exact stringify_canon_eq (sizeOf a) a b _ le_rfl hwa hwb hcanon

theorem hashData_key_order_independent_witness :
    (Json.wf (Json.obj [("b", .num 2), ("a", .obj [("d", .num 1), ("c", .num 2)])]) = true ∧
     Json.wf (Json.obj [("a", .obj [("c", .num 2), ("d", .num 1)]), ("b", .num 2)]) = true ∧
     Json.canon (Json.obj [("b", .num 2), ("a", .obj [("d", .num 1), ("c", .num 2)])]) =
       Json.canon (Json.obj [("a", .obj [("c", .num 2), ("d", .num 1)]), ("b", .num 2)])) ∧
    hashData (Json.obj [("b", .num 2), ("a", .obj [("d", .num 1), ("c", .num 2)])]) =
      hashData (Json.obj [("a", .obj [("c", .num 2), ("d", .num 1)]), ("b", .num 2)]) :=
  ⟨⟨by decide, by decide, by decide⟩,
    hashData_key_order_independent _ _ (by decide) (by decide) (by decide)⟩

/-- A JSON-pointer path segment: an object key or an array index. -/
inductive Seg where
  | key (s : String) : Seg
  | idx (n : Nat) : Seg
deriving DecidableEq

/-- The JSON-Patch operation kinds of the `fast-json-patch` `Operation`
type; `computeDiff` only ever produces `add`, `remove` and `replace`. -/
inductive OpKind where
  | add : OpKind
  | remove : OpKind
  | replace : OpKind
  | move : OpKind
  | copy : OpKind
  | test : OpKind
deriving DecidableEq

/-- One JSON-Patch operation; `value` is `none` for `remove`. -/
structure Op where
  kind : OpKind
  path : List Seg
  value : Option Json
deriving DecidableEq

/-- Prefix an operation's path with one segment. -/
def Op.prepend (s : Seg) (o : Op) : Op := { o with path := s :: o.path }

mutual

/-- Modelled from the spec: `computeDiff` (src/lib/diff.ts lines 9-11)
delegates to the third-party `fast-json-patch` `compare`, whose source is
not part of this repository; section 4.3 of the spec re-specifies it as a
recursive structural comparison, embedded here.  Unequal scalars give one
`replace` at the current path; distinct types give one `replace` with the
whole new value; two objects are merged field by field (documents are
taken in canonical key-sorted form, so keys are visited in ascending
order): keys only in the new document give `add`, keys only in the old
give `remove`, keys in both recurse; two arrays are compared
positionally. -/
def diffOps : Json → Json → List Op
  | .obj fo, .obj fn => diffFields fo fn
  | .arr xo, .arr xn => diffArr 0 xo xn
  | a, b => if a = b then [] else [⟨.replace, [], some b⟩]

/-- Merge two canonically key-sorted field lists, visiting keys in
ascending order. -/
def diffFields : List (String × Json) → List (String × Json) → List Op
  | [], [] => []
  | [], (k, v) :: ns => ⟨.add, [.key k], some v⟩ :: diffFields [] ns
  | (k, _) :: os, [] => ⟨.remove, [.key k], none⟩ :: diffFields os []
  | (ko, vo) :: os, (kn, vn) :: ns =>
    if ko = kn then
      (diffOps vo vn).map (Op.prepend (.key ko)) ++ diffFields os ns
    else if strLe ko kn then
      ⟨.remove, [.key ko], none⟩ :: diffFields os ((kn, vn) :: ns)
    else
      ⟨.add, [.key kn], some vn⟩ :: diffFields ((ko, vo) :: os) ns

/-- Positional array comparison from index `i`: index-by-index `replace`
for overlapping indices, `add` for new trailing indices, `remove` for
removed trailing indices (removes emitted deepest index first, as a
JSON-Patch generator must for the sequence to apply cleanly). -/
def diffArr : Nat → List Json → List Json → List Op
  | _, [], [] => []
  | i, [], n :: ns => ⟨.add, [.idx i], some n⟩ :: diffArr (i + 1) [] ns
  | i, _ :: os, [] => diffArr (i + 1) os [] ++ [⟨.remove, [.idx i], none⟩]
  | i, o :: os, n :: ns =>
    (if o = n then [] else [⟨.replace, [.idx i], some n⟩]) ++ diffArr (i + 1) os ns

end

/-- `countChanges` (src/lib/diff.ts lines 18-20): the number of
operations. -/
def countChanges (diff : List Op) : Nat := diff.length

/-- The record returned by `categorizeChanges`. -/
structure ChangeCounts where
  additions : Nat
  deletions : Nat
  modifications : Nat
  total : Nat
deriving DecidableEq

/-- `categorizeChanges` (src/lib/diff.ts lines 75-93): additions count
`add` ops, deletions count `remove` ops, modifications count `replace`
(together with `copy` and `move`, which `computeDiff` never produces),
total is the length. -/
def categorizeChanges (diff : List Op) : ChangeCounts :=
  { additions := (diff.filter (fun o => o.kind == OpKind.add)).length,
    deletions := (diff.filter (fun o => o.kind == OpKind.remove)).length,
    modifications := (diff.filter (fun o =>
      o.kind == OpKind.replace || o.kind == OpKind.copy || o.kind == OpKind.move)).length,
    total := diff.length }

example : diffOps (.obj [("foo", .str "bar")]) (.obj [("baz", .str "qux"), ("foo", .str "bar")])
    = [⟨.add, [.key "baz"], some (.str "qux")⟩] := by
  simp only [diffOps, diffFields]
  decide

example : diffOps (.obj [("baz", .str "qux"), ("foo", .str "bar")]) (.obj [("foo", .str "bar")])
    = [⟨.remove, [.key "baz"], none⟩] := by
  simp only [diffOps, diffFields]
  decide

example : diffOps (.obj [("foo", .str "bar")]) (.obj [("foo", .str "baz")])
    = [⟨.replace, [.key "foo"], some (.str "baz")⟩] := by
  simp only [diffOps, diffFields]
  decide

/-- Insert a fresh key into a canonically sorted field list, keeping it
sorted (JSON-Patch object `add`; `computeDiff` only adds absent keys). -/
def insertField (s : String) (v : Json) : List (String × Json) → List (String × Json)
  | [] => [(s, v)]
  | (k, w) :: t => if strLe s k then (s, v) :: (k, w) :: t else (k, w) :: insertField s v t

/-- Remove the first field with key `s` (JSON-Patch object `remove`). -/
def eraseField (s : String) : List (String × Json) → List (String × Json)
  | [] => []
  | (k, w) :: t => if k = s then t else (k, w) :: eraseField s t

/-- Overwrite the first field with key `s` (JSON-Patch object `replace`). -/
def setField (s : String) (v : Json) : List (String × Json) → List (String × Json)
  | [] => []
  | (k, w) :: t => if k = s then (k, v) :: t else (k, w) :: setField s v t

/-- Insert before index `i` (JSON-Patch array `add`; `i` = length appends). -/
def listInsertAt (v : Json) : Nat → List Json → List Json
  | 0, xs => v :: xs
  | _ + 1, [] => [v]
  | i + 1, x :: xs => x :: listInsertAt v i xs

/-- Remove the element at index `i` (JSON-Patch array `remove`). -/
def listRemoveAt : Nat → List Json → List Json
  | _, [] => []
  | 0, _ :: xs => xs
  | i + 1, x :: xs => x :: listRemoveAt i xs

/-- Overwrite the element at index `i` (JSON-Patch array `replace`). -/
def listSetAt (v : Json) : Nat → List Json → List Json
  | _, [] => []
  | 0, _ :: xs => v :: xs
  | i + 1, x :: xs => x :: listSetAt v i xs

/-- Element at index `i`. -/
def listGetAt : Nat → List Json → Option Json
  | _, [] => none
  | 0, x :: _ => some x
  | i + 1, _ :: xs => listGetAt i xs

/-- Modelled from the spec: application of one JSON-Patch operation with
the object semantics and positional array semantics of section 4.3.
`replace` overwrites an existing location (or the whole document at the
root path); `add` inserts a fresh object key (in sorted position, keeping
documents canonical) or an array element before the given index; `remove`
deletes an existing key or index; descending into a missing child
fails. -/
def applyAt (kind : OpKind) (value : Option Json) : Json → List Seg → Option Json
  | _, [] =>
    match kind, value with
    | .replace, some v => some v
    | .add, some v => some v
    | _, _ => none
  | .obj fields, [.key s] =>
    match kind with
    | .add =>
      match value with
      | some v => some (.obj (insertField s v fields))
      | none => none
    | .remove => if hasKey fields s then some (.obj (eraseField s fields)) else none
    | .replace =>
      match value with
      | some v => if hasKey fields s then some (.obj (setField s v fields)) else none
      | none => none
    | _ => none
  | .obj fields, .key s :: r :: rest =>
    match fields.find? (fun q => q.1 == s) with
    | some p =>
      match applyAt kind value p.2 (r :: rest) with
      | some w => some (.obj (setField s w fields))
      | none => none
    | none => none
  | .arr xs, [.idx i] =>
    match kind with
    | .add =>
      match value with
      | some v => if i ≤ xs.length then some (.arr (listInsertAt v i xs)) else none
      | none => none
    | .remove => if i < xs.length then some (.arr (listRemoveAt i xs)) else none
    | .replace =>
      match value with
      | some v => if i < xs.length then some (.arr (listSetAt v i xs)) else none
      | none => none
    | _ => none
  | .arr xs, .idx i :: r :: rest =>
    match listGetAt i xs with
    | some x =>
      match applyAt kind value x (r :: rest) with
      | some w => some (.arr (listSetAt w i xs))
      | none => none
    | none => none
  | _, _ => none

/-- Apply one operation. -/
def applyOp (j : Json) (o : Op) : Option Json := applyAt o.kind o.value j o.path

/-- Apply a whole operation sequence left to right, as JSON-Patch
`applyPatch` does; any failing operation fails the whole patch. -/
def applyOps (j : Json) : List Op → Option Json
  | [] => some j
  | o :: t =>
    match applyOp j o with
    | some w => applyOps w t
    | none => none

/-- Strict code-unit order on strings. -/
def strLtP (a b : String) : Prop := strLe a b = true ∧ a ≠ b

instance : DecidableRel strLtP :=
  fun a b => inferInstanceAs (Decidable (strLe a b = true ∧ a ≠ b))

/-- Keys strictly ascending. -/
def strictSorted : List String → Bool
  | [] => true
  | [_] => true
  | a :: b :: t => (strLe a b && !(a == b)) && strictSorted (b :: t)

mutual

/-- A document in canonical form: every object's field list strictly
key-sorted (hence keys distinct), at every depth.  Canonical
representatives are in bijection with JSON documents up to object key
order, which is exactly the content JSON-Patch semantics preserves. -/
def Json.isCanon : Json → Bool
  | .obj fs => strictSorted (fs.map (fun p => p.1)) && Json.isCanonFields fs
  | .arr xs => Json.isCanonList xs
  | .null => true
  | .bool _ => true
  | .num _ => true
  | .str _ => true

/-- Canonical form of every element of an array. -/
def Json.isCanonList : List Json → Bool
  | [] => true
  | x :: xs => Json.isCanon x && Json.isCanonList xs

/-- Canonical form of every field value of an object. -/
def Json.isCanonFields : List (String × Json) → Bool
  | [] => true
  | (_, v) :: fs => Json.isCanon v && Json.isCanonFields fs

end

theorem lexLe_refl : ∀ a : List Char, lexLe a a = true := by
  intro a
  induction a with
  | nil => rfl
  | cons x xs ih => simp [lexLe, lt_irrefl, ih]

theorem strLe_refl (a : String) : strLe a a = true := lexLe_refl a.data

theorem strLe_total (a b : String) : strLe a b = true ∨ strLe b a = true :=
  lexLe_total a.data b.data

theorem strLe_antisymm_str {a b : String} (h1 : strLe a b = true) (h2 : strLe b a = true) :
    a = b := String.eq_of_data_eq (lexLe_antisymm a.data b.data h1 h2)

theorem strLe_trans_str {a b c : String} (h1 : strLe a b = true) (h2 : strLe b c = true) :
    strLe a c = true := lexLe_trans a.data b.data c.data h1 h2

theorem strLtP_trans {a b c : String} (h1 : strLtP a b) (h2 : strLtP b c) : strLtP a c := by
  obtain ⟨hle1, hne1⟩ := h1
  obtain ⟨hle2, hne2⟩ := h2
  refine ⟨strLe_trans_str hle1 hle2, ?_⟩
  intro he
  subst he
  exact hne1 (strLe_antisymm_str hle1 hle2)

theorem strLe_false_of_strLtP {a b : String} (h : strLtP a b) : strLe b a = false := by
  obtain ⟨hle, hne⟩ := h
  cases hba : strLe b a with
  | false => rfl
  | true => exact absurd (strLe_antisymm_str hle hba) hne

theorem strLe_of_not_strLe {a b : String} (h : strLe a b = false) : strLe b a = true := by
  rcases strLe_total a b with h1 | h1
  · rw [h1] at h; cases h
  · exact h1

theorem strLtP_of_not_strLe {a b : String} (h : strLe a b = false) : strLtP b a := by
  refine ⟨strLe_of_not_strLe h, ?_⟩
  intro he
  subst he
  rw [strLe_refl] at h
  cases h

theorem strictSorted_pairwise : ∀ l : List String, strictSorted l = true →
    List.Pairwise strLtP l := by
  intro l
  induction l with
  | nil => intro _; exact List.Pairwise.nil
  | cons a t ih =>
    intro h
    cases t with
    | nil => simp
    | cons b t2 =>
      simp only [strictSorted, Bool.and_eq_true, Bool.not_eq_true', beq_eq_false_iff_ne,
        ne_eq] at h
      obtain ⟨⟨hle, hne⟩, hrest⟩ := h
      have hp := ih hrest
      refine List.Pairwise.cons ?_ hp
      intro x hx
      rcases List.mem_cons.mp hx with he | ht
      · subst he; exact ⟨hle, hne⟩
      · exact strLtP_trans ⟨hle, hne⟩ (List.rel_of_pairwise_cons hp ht)

theorem applyOps_append (l1 l2 : List Op) : ∀ j : Json, applyOps j (l1 ++ l2) =
    match applyOps j l1 with
    | some w => applyOps w l2
    | none => none := by
  induction l1 with
  | nil => intro j; rfl
  | cons o t ih =>
    intro j
    simp only [List.cons_append, applyOps]
    cases applyOp j o with
    | none => rfl
    | some w => exact ih w

theorem hasKey_find? {fields : List (String × Json)} {s : String}
    (h : hasKey fields s = true) :
    ∃ p, fields.find? (fun q => q.1 == s) = some p := by
  rw [hasKey, List.any_eq_true] at h
  obtain ⟨p, hp, he⟩ := h
  rcases hf : fields.find? (fun q => q.1 == s) with _ | q
  · exact absurd he (by simpa using List.find?_eq_none.mp hf p hp)
  · exact ⟨q, hf⟩

theorem find?_valueAt {fields : List (String × Json)} {s : String} {p : String × Json}
    (h : fields.find? (fun q => q.1 == s) = some p) : valueAt fields s = p.2 := by
  unfold valueAt
  rw [h]

theorem keys_setField (s : String) (v : Json) : ∀ fields : List (String × Json),
    (setField s v fields).map (fun p => p.1) = fields.map (fun p => p.1) := by
  intro fields
  induction fields with
  | nil => rfl
  | cons f t ih =>
    obtain ⟨k, w⟩ := f
    by_cases h : k = s <;> simp [setField, h, ih]

theorem hasKey_setField (s t : String) (v : Json) (fields : List (String × Json)) :
    hasKey (setField s v fields) t = hasKey fields t := by
  cases h1 : hasKey (setField s v fields) t with
  | true =>
    rw [hasKey_iff, keys_setField, ← hasKey_iff] at h1
    exact h1.symm
  | false =>
    cases h2 : hasKey fields t with
    | false => rfl
    | true =>
      rw [hasKey_iff, ← keys_setField s v, ← hasKey_iff] at h2
      rw [h1] at h2
      cases h2

theorem valueAt_setField {s : String} {v : Json} : ∀ {fields : List (String × Json)},
    hasKey fields s = true → valueAt (setField s v fields) s = v := by
  intro fields
  induction fields with
  | nil => intro h; cases h
  | cons f t ih =>
    intro h
    obtain ⟨k, w⟩ := f
    by_cases hk : k = s
    · subst hk
      simp [setField, valueAt]
    · have ht : hasKey t s = true := by
        rw [hasKey] at h ⊢
        rw [List.any_cons, Bool.or_eq_true] at h
        rcases h with h | h
        · simp [hk] at h
        · exact h
      simp only [setField, hk, if_false]
      unfold valueAt at ih ⊢
      rw [List.find?_cons_of_neg _ (by simp [hk])]
      exact ih ht

theorem setField_setField (s : String) (v w : Json) : ∀ fields : List (String × Json),
    setField s v (setField s w fields) = setField s v fields := by
  intro fields
  induction fields with
  | nil => rfl
  | cons f t ih =>
    obtain ⟨k, u⟩ := f
    by_cases h : k = s <;> simp [setField, h, ih]

theorem setField_valueAt_self (s : String) : ∀ fields : List (String × Json),
    setField s (valueAt fields s) fields = fields := by
  intro fields
  induction fields with
  | nil => rfl
  | cons f t ih =>
    obtain ⟨k, u⟩ := f
    by_cases h : k = s
    · subst h
      simp [setField, valueAt]
    · simp only [setField, h, if_false]
      have : valueAt ((k, u) :: t) s = valueAt t s := by
        unfold valueAt
        rw [List.find?_cons_of_neg _ (by simp [h])]
      rw [this, ih]

theorem applyOp_prepend_key (o : Op) (fields : List (String × Json)) (s : String)
    (h : hasKey fields s = true)
    (hinv : o.path ≠ [] ∨ o.kind = .replace) :
    applyOp (.obj fields) (o.prepend (.key s)) =
      (applyOp (valueAt fields s) o).map (fun w => Json.obj (setField s w fields)) := by
  obtain ⟨kind, path, value⟩ := o
  cases path with
  | nil =>
    have hk : kind = .replace := by
      rcases hinv with h1 | h1
      · exact absurd rfl h1
      · exact h1
    subst hk
    cases value with
    | none => simp [applyOp, Op.prepend, applyAt]
    | some v => simp [applyOp, Op.prepend, applyAt, h]
  | cons r rest =>
    obtain ⟨p, hp⟩ := hasKey_find? h
    have hv := find?_valueAt hp
    simp only [applyOp, Op.prepend, applyAt, hp, hv]
    cases applyAt kind value p.2 (r :: rest) <;> rfl

theorem applyOps_prepend_key : ∀ (ops : List Op) (fields : List (String × Json)) (s : String),
    hasKey fields s = true →
    (∀ o ∈ ops, o.path ≠ [] ∨ o.kind = .replace) →
    applyOps (.obj fields) (ops.map (Op.prepend (.key s))) =
      (applyOps (valueAt fields s) ops).map (fun w => Json.obj (setField s w fields)) := by
  intro ops
  induction ops with
  | nil =>
    intro fields s h _
    simp [applyOps, setField_valueAt_self]
  | cons o t ih =>
    intro fields s h hinv
    simp only [List.map_cons, applyOps]
    rw [applyOp_prepend_key o fields s h (hinv o (by simp))]
    cases happ : applyOp (valueAt fields s) o with
    | none => simp
    | some w =>
      simp only [Option.map]
      rw [ih (setField s w fields) s (by rw [hasKey_setField]; exact h)
        (fun o2 ho2 => hinv o2 (by simp [ho2]))]
      rw [valueAt_setField h]
      cases applyOps w t <;> simp [setField_setField]

theorem diffArr_path_ne : ∀ (os : List Json) (i : Nat) (ns : List Json),
    ∀ o ∈ diffArr i os ns, o.path ≠ [] := by
  intro os
  induction os with
  | nil =>
    intro i ns
    induction ns generalizing i with
    | nil => intro o ho; simp [diffArr] at ho
    | cons n t ih =>
      intro o ho
      simp only [diffArr] at ho
      rcases List.mem_cons.mp ho with he | ht
      · subst he; simp
      · exact ih (i + 1) o ht
  | cons x os ih =>
    intro i ns
    cases ns with
    | nil =>
      intro o ho
      simp only [diffArr] at ho
      rcases List.mem_append.mp ho with h1 | h1
      · exact ih (i + 1) [] o h1
      · simp only [List.mem_singleton] at h1
        subst h1; simp
    | cons n t =>
      intro o ho
      simp only [diffArr] at ho
      rcases List.mem_append.mp ho with h1 | h1
      · by_cases he : x = n
        · rw [if_pos he] at h1; simp at h1
        · rw [if_neg he] at h1
          simp only [List.mem_singleton] at h1
          subst h1; simp
      · exact ih (i + 1) t o h1

theorem diffFields_path_ne : ∀ (m : Nat) (os ns : List (String × Json)),
    os.length + ns.length ≤ m → ∀ o ∈ diffFields os ns, o.path ≠ [] := by
  intro m
  induction m with
  | zero =>
    intro os ns hm o ho
    cases os with
    | nil =>
      cases ns with
      | nil => simp [diffFields] at ho
      | cons a b => simp at hm
    | cons a b => simp at hm
  | succ m ih =>
    intro os ns hm o ho
    match os, ns with
    | [], [] => simp [diffFields] at ho
    | [], (k, v) :: ns =>
      simp only [diffFields] at ho
      rcases List.mem_cons.mp ho with he | ht
      · subst he; simp
      · exact ih [] ns (by simp at hm ⊢; omega) o ht
    | (k, v) :: os, [] =>
      simp only [diffFields] at ho
      rcases List.mem_cons.mp ho with he | ht
      · subst he; simp
      · exact ih os [] (by simp at hm ⊢; omega) o ht
    | (ko, vo) :: os, (kn, vn) :: ns =>
      simp only [diffFields] at ho
      by_cases he : ko = kn
      · rw [if_pos he] at ho
        rcases List.mem_append.mp ho with h1 | h1
        · obtain ⟨u, hu, he2⟩ := List.mem_map.mp h1
          rw [← he2]; simp [Op.prepend]
        · exact ih os ns (by simp at hm ⊢; omega) o h1
      · rw [if_neg he] at ho
        by_cases hle : strLe ko kn = true
        · rw [if_pos hle] at ho
          rcases List.mem_cons.mp ho with h1 | h1
          · subst h1; simp
          · exact ih os ((kn, vn) :: ns) (by simp at hm ⊢; omega) o h1
        · rw [if_neg hle] at ho
          rcases List.mem_cons.mp ho with h1 | h1
          · subst h1; simp
          · exact ih ((ko, vo) :: os) ns (by simp at hm ⊢; omega) o h1

theorem mem_if_replace {c : Prop} [Decidable c] {b : Json} {o : Op}
    (ho : o ∈ (if c then ([] : List Op) else [⟨.replace, [], some b⟩])) :
    o.kind = .replace := by
  split at ho
  · simp at ho
  · simp only [List.mem_singleton] at ho
    rw [ho]

theorem diffOps_inv (a b : Json) : ∀ o ∈ diffOps a b, o.path ≠ [] ∨ o.kind = .replace := by
  intro o ho
  cases a <;> cases b <;> simp only [diffOps] at ho
  case obj.obj fo fn =>
    exact Or.inl (diffFields_path_ne (fo.length + fn.length) fo fn le_rfl o ho)
  case arr.arr xo xn =>
    exact Or.inl (diffArr_path_ne xo 0 xn o ho)
  all_goals exact Or.inr (mem_if_replace ho)

theorem insertField_append (s : String) (v : Json) :
    ∀ (pre post : List (String × Json)),
    (∀ p ∈ pre, strLe s p.1 = false) →
    (∀ q ∈ post, strLe s q.1 = true) →
    insertField s v (pre ++ post) = pre ++ (s, v) :: post := by
  intro pre
  induction pre with
  | nil =>
    intro post _ h2
    cases post with
    | nil => rfl
    | cons q t =>
      obtain ⟨k, w⟩ := q
      simp only [List.nil_append, insertField]
      rw [if_pos (h2 (k, w) (by simp))]
  | cons p t ih =>
    intro post h1 h2
    obtain ⟨k, w⟩ := p
    simp only [List.cons_append, insertField]
    rw [if_neg (by simp [h1 (k, w) (by simp)])]
    simp only [List.append_eq]
    rw [ih post (fun p2 hp => h1 p2 (by simp [hp])) h2]

theorem eraseField_append (s : String) (v : Json) :
    ∀ (pre post : List (String × Json)), (∀ p ∈ pre, p.1 ≠ s) →
    eraseField s (pre ++ (s, v) :: post) = pre ++ post := by
  intro pre
  induction pre with
  | nil => intro post _; simp [eraseField]
  | cons p t ih =>
    intro post h
    obtain ⟨k, w⟩ := p
    simp only [List.cons_append, eraseField]
    rw [if_neg (h (k, w) (by simp))]
    simp only [List.append_eq]
    rw [ih post (fun p2 hp => h p2 (by simp [hp]))]

theorem setField_append (s : String) (v w : Json) :
    ∀ (pre post : List (String × Json)), (∀ p ∈ pre, p.1 ≠ s) →
    setField s v (pre ++ (s, w) :: post) = pre ++ (s, v) :: post := by
  intro pre
  induction pre with
  | nil => intro post _; simp [setField]
  | cons p t ih =>
    intro post h
    obtain ⟨k, u⟩ := p
    simp only [List.cons_append, setField]
    rw [if_neg (h (k, u) (by simp))]
    simp only [List.append_eq]
    rw [ih post (fun p2 hp => h p2 (by simp [hp]))]

theorem listInsertAt_prefix (v : Json) : ∀ (pre xs : List Json),
    listInsertAt v pre.length (pre ++ xs) = pre ++ v :: xs := by
  intro pre
  induction pre with
  | nil => intro xs; rfl
  | cons x t ih => intro xs; simp [listInsertAt, ih]

theorem listRemoveAt_prefix : ∀ (pre : List Json) (x : Json) (xs : List Json),
    listRemoveAt pre.length (pre ++ x :: xs) = pre ++ xs := by
  intro pre
  induction pre with
  | nil => intro x xs; rfl
  | cons y t ih => intro x xs; simp [listRemoveAt, ih]

theorem listSetAt_prefix (v : Json) : ∀ (pre : List Json) (x : Json) (xs : List Json),
    listSetAt v pre.length (pre ++ x :: xs) = pre ++ v :: xs := by
  intro pre
  induction pre with
  | nil => intro x xs; rfl
  | cons y t ih => intro x xs; simp [listSetAt, ih]

theorem pairwise_mid (pre : List (String × Json)) (k : String) (v : Json)
    (rest : List (String × Json))
    (h : List.Pairwise strLtP ((pre ++ (k, v) :: rest).map (fun p => p.1))) :
    (∀ p ∈ pre, strLtP p.1 k) ∧ (∀ q ∈ rest, strLtP k q.1) := by
  rw [List.map_append, List.map_cons, List.pairwise_append] at h
  obtain ⟨h1, h2, h3⟩ := h
  constructor
  · intro p hp
    exact h3 p.1 (List.mem_map.mpr ⟨p, hp, rfl⟩) k (by simp)
  · intro q hq
    exact List.rel_of_pairwise_cons h2 (List.mem_map.mpr ⟨q, hq, rfl⟩)

theorem pairwise_keys_sublist {l1 l2 : List (String × Json)}
    (hs : List.Sublist l1 l2)
    (h : List.Pairwise strLtP (l2.map (fun p => p.1))) :
    List.Pairwise strLtP (l1.map (fun p => p.1)) :=
  h.sublist (hs.map (fun p => p.1))

theorem keysDistinct_of_pairwise : ∀ l : List String,
    List.Pairwise (fun a b => a ≠ b) l → keysDistinct l = true := by
  intro l
  induction l with
  | nil => intro _; rfl
  | cons a t ih =>
    intro h
    rw [List.pairwise_cons] at h
    obtain ⟨hne, hp⟩ := h
    simp only [keysDistinct, Bool.and_eq_true, Bool.not_eq_true']
    constructor
    · cases hany : t.any (fun x => x == a) with
      | false => rfl
      | true =>
        rw [List.any_eq_true] at hany
        obtain ⟨x, hx, he⟩ := hany
        rw [beq_iff_eq] at he
        exact absurd he.symm (hne x hx)
    · exact ih hp

theorem isCanonFields_mem : ∀ (fs : List (String × Json)), Json.isCanonFields fs = true →
    ∀ (k : String) (v : Json), (k, v) ∈ fs → Json.isCanon v = true := by
  intro fs
  induction fs with
  | nil => intro _ k v hm; simp at hm
  | cons f t ih =>
    intro h k v hm
    obtain ⟨k2, v2⟩ := f
    simp only [Json.isCanonFields, Bool.and_eq_true] at h
    rcases List.mem_cons.mp hm with he | ht
    · cases he; exact h.1
    · exact ih h.2 k v ht

theorem diffFields_roundtrip : ∀ (m : Nat) (os ns pre : List (String × Json)),
    os.length + ns.length ≤ m →
    (∀ v w : Json, (∃ k, (k, v) ∈ os) → (∃ k2, (k2, w) ∈ ns) →
      applyOps v (diffOps v w) = some w) →
    List.Pairwise strLtP ((pre ++ os).map (fun p => p.1)) →
    List.Pairwise strLtP ((pre ++ ns).map (fun p => p.1)) →
    applyOps (.obj (pre ++ os)) (diffFields os ns) = some (.obj (pre ++ ns)) := by
  intro m
  induction m with
  | zero =>
    intro os ns pre hm _ _ _
    cases os with
    | nil =>
      cases ns with
      | nil => simp [diffFields, applyOps]
      | cons a b => simp at hm
    | cons a b => simp at hm
  | succ m ih =>
    intro os ns pre hm hIH hsO hsN
    match os, ns with
    | [], [] => simp [diffFields, applyOps]
    | [], (k, v) :: ns =>
      have hmid := pairwise_mid pre k v ns hsN
      have h1 : applyOp (.obj (pre ++ [])) ⟨.add, [.key k], some v⟩
          = some (.obj (pre ++ (k, v) :: [])) := by
        simp only [applyOp, applyAt]
        rw [insertField_append k v pre []
          (fun p hp => strLe_false_of_strLtP (hmid.1 p hp)) (by simp)]
      simp only [diffFields, applyOps, h1]
      have hres := ih [] ns (pre ++ [(k, v)])
        (by simp only [List.length_nil, List.length_cons] at hm ⊢; omega)
        (fun v2 w2 hv2 _ => by simp at hv2)
        (by
          rw [List.append_nil]
          exact pairwise_keys_sublist
            (List.Sublist.append_left
              (List.Sublist.cons₂ _ (List.nil_sublist ns)) pre) hsN)
        (by rw [List.append_assoc]; simpa using hsN)
      simpa [List.append_assoc] using hres
    | (k, v) :: os, [] =>
      have hmid := pairwise_mid pre k v os hsO
      have hk : hasKey (pre ++ (k, v) :: os) k = true := by
        rw [hasKey_iff]; simp
      have h1 : applyOp (.obj (pre ++ (k, v) :: os)) ⟨.remove, [.key k], none⟩
          = some (.obj (pre ++ os)) := by
        simp only [applyOp, applyAt]
        rw [if_pos hk, eraseField_append k v pre os (fun p hp => (hmid.1 p hp).2)]
      simp only [diffFields, applyOps, h1]
      exact ih os [] pre
        (by simp only [List.length_nil, List.length_cons] at hm ⊢; omega)
        (fun v2 w2 _ hw2 => by simp at hw2)
        (pairwise_keys_sublist
          (List.Sublist.append_left (List.sublist_cons_self (k, v) os) pre) hsO)
        hsN
    | (ko, vo) :: os, (kn, vn) :: ns =>
      by_cases he : ko = kn
      · subst he
        simp only [diffFields, eq_self_iff_true, if_true]
        rw [applyOps_append]
        have hk : hasKey (pre ++ (ko, vo) :: os) ko = true := by
          rw [hasKey_iff]; simp
        rw [applyOps_prepend_key (diffOps vo vn) (pre ++ (ko, vo) :: os) ko hk
          (diffOps_inv vo vn)]
        have hmidO := pairwise_mid pre ko vo os hsO
        have hvAt : valueAt (pre ++ (ko, vo) :: os) ko = vo := by
          apply valueAt_eq_of_mem
        /- keys distinct from the pairwise strict order -/
          · exact keysDistinct_of_pairwise _ (hsO.imp (fun h => h.2))
          · simp
        rw [hvAt]
        rw [hIH vo vn ⟨ko, by simp⟩ ⟨ko, by simp⟩]
        simp only [Option.map]
        rw [setField_append ko vn vo pre os (fun p hp => (hmidO.1 p hp).2)]
        have hres := ih os ns (pre ++ [(ko, vn)])
          (by simp only [List.length_cons] at hm ⊢; omega)
          (fun v2 w2 hv2 hw2 => hIH v2 w2
            (by obtain ⟨k2, hk2⟩ := hv2; exact ⟨k2, by simp [hk2]⟩)
            (by obtain ⟨k2, hk2⟩ := hw2; exact ⟨k2, by simp [hk2]⟩))
          (by
            have hkeq : ((pre ++ [(ko, vn)]) ++ os).map (fun p => p.1)
                = ((pre ++ (ko, vo) :: os).map (fun p => p.1)) := by
              simp [List.map_append]
            rw [hkeq]
            exact hsO)
          (by rw [List.append_assoc]; simpa using hsN)
        simpa [List.append_assoc] using hres
      · by_cases hle : strLe ko kn = true
        · simp only [diffFields, if_neg he, if_pos hle]
          have hmidO := pairwise_mid pre ko vo os hsO
          have hk : hasKey (pre ++ (ko, vo) :: os) ko = true := by
            rw [hasKey_iff]; simp
          have h1 : applyOp (.obj (pre ++ (ko, vo) :: os)) ⟨.remove, [.key ko], none⟩
              = some (.obj (pre ++ os)) := by
            simp only [applyOp, applyAt]
            rw [if_pos hk, eraseField_append ko vo pre os (fun p hp => (hmidO.1 p hp).2)]
          simp only [applyOps, h1]
          exact ih os ((kn, vn) :: ns) pre
            (by simp only [List.length_cons] at hm ⊢; omega)
            (fun v2 w2 hv2 hw2 => hIH v2 w2
              (by obtain ⟨k2, hk2⟩ := hv2; exact ⟨k2, by simp [hk2]⟩) hw2)
            (pairwise_keys_sublist
              (List.Sublist.append_left (List.sublist_cons_self (ko, vo) os) pre) hsO)
            hsN
        · simp only [diffFields, if_neg he, if_neg hle]
          have hmidN := pairwise_mid pre kn vn ns hsN
          have hmidO := pairwise_mid pre ko vo os hsO
          have hfalse : strLe ko kn = false := by
            cases hx : strLe ko kn with
            | false => rfl
            | true => exact absurd hx hle
          have hlt : strLtP kn ko := strLtP_of_not_strLe hfalse
          have h1 : applyOp (.obj (pre ++ (ko, vo) :: os)) ⟨.add, [.key kn], some vn⟩
              = some (.obj (pre ++ (kn, vn) :: (ko, vo) :: os)) := by
            simp only [applyOp, applyAt]
            rw [insertField_append kn vn pre ((ko, vo) :: os)
              (fun p hp => strLe_false_of_strLtP (hmidN.1 p hp))
              (by
                intro q hq
                rcases List.mem_cons.mp hq with he2 | ht
                · subst he2; exact hlt.1
                · exact (strLtP_trans hlt (hmidO.2 q ht)).1)]
          simp only [applyOps, h1]
          have hassemble : List.Pairwise strLtP
              ((pre ++ (kn, vn) :: (ko, vo) :: os).map (fun p => p.1)) := by
            have hsO2 := hsO
            rw [List.map_append, List.map_cons, List.pairwise_append] at hsO2
            rw [List.map_append, List.map_cons, List.map_cons, List.pairwise_append]
            refine ⟨hsO2.1, ?_, ?_⟩
            · refine List.Pairwise.cons ?_ hsO2.2.1
              intro x hx
              rcases List.mem_cons.mp hx with he2 | ht
              · subst he2; exact hlt
              · obtain ⟨q, hq, rfl⟩ := List.mem_map.mp ht
                exact strLtP_trans hlt (hmidO.2 q hq)
            · intro a ha b hb
              obtain ⟨p, hp, rfl⟩ := List.mem_map.mp ha
              rcases List.mem_cons.mp hb with he2 | hb2
              · subst he2; exact hmidN.1 p hp
              · rcases List.mem_cons.mp hb2 with he3 | hb3
                · subst he3; exact hmidO.1 p hp
                · obtain ⟨q, hq, rfl⟩ := List.mem_map.mp hb3
                  exact strLtP_trans (hmidO.1 p hp) (hmidO.2 q hq)
          have hres := ih ((ko, vo) :: os) ns (pre ++ [(kn, vn)])
            (by simp only [List.length_cons] at hm ⊢; omega)
            (fun v2 w2 hv2 hw2 => hIH v2 w2 hv2
              (by obtain ⟨k2, hk2⟩ := hw2; exact ⟨k2, by simp [hk2]⟩))
            (by rw [List.append_assoc]; simpa using hassemble)
            (by rw [List.append_assoc]; simpa using hsN)
          simpa [List.append_assoc] using hres

theorem diffArr_roundtrip : ∀ (m : Nat) (os ns pre : List Json),
    os.length + ns.length ≤ m →
    applyOps (.arr (pre ++ os)) (diffArr pre.length os ns) = some (.arr (pre ++ ns)) := by
  intro m
  induction m with
  | zero =>
    intro os ns pre hm
    cases os with
    | nil =>
      cases ns with
      | nil => simp [diffArr, applyOps]
      | cons a b => simp at hm
    | cons a b => simp at hm
  | succ m ih =>
    intro os ns pre hm
    match os, ns with
    | [], [] => simp [diffArr, applyOps]
    | [], n :: ns =>
      have h1 : applyOp (.arr (pre ++ [])) ⟨.add, [.idx pre.length], some n⟩
          = some (.arr (pre ++ n :: [])) := by
        simp only [applyOp, applyAt]
        rw [if_pos (by simp), listInsertAt_prefix n pre []]
      simp only [diffArr, applyOps, h1]
      have hres := ih [] ns (pre ++ [n])
        (by simp only [List.length_nil, List.length_cons] at hm ⊢; omega)
      simpa [List.append_assoc, List.length_append] using hres
    | o :: os, [] =>
      simp only [diffArr]
      rw [applyOps_append]
      have hres := ih os [] (pre ++ [o])
        (by simp only [List.length_nil, List.length_cons] at hm ⊢; omega)
      have hres2 : applyOps (.arr (pre ++ o :: os)) (diffArr (pre.length + 1) os [])
          = some (.arr (pre ++ [o])) := by
        simpa [List.append_assoc, List.length_append] using hres
      rw [hres2]
      simp only [applyOps, applyOp, applyAt]
      rw [if_pos (by simp), listRemoveAt_prefix pre o []]
    | o :: os, n :: ns =>
      by_cases he : o = n
      · subst he
        simp only [diffArr, eq_self_iff_true, if_true, List.nil_append]
        have hres := ih os ns (pre ++ [o])
          (by simp only [List.length_cons] at hm ⊢; omega)
        simpa [List.append_assoc, List.length_append] using hres
      · simp only [diffArr, if_neg he, List.singleton_append]
        have h1 : applyOp (.arr (pre ++ o :: os)) ⟨.replace, [.idx pre.length], some n⟩
            = some (.arr (pre ++ n :: os)) := by
          simp only [applyOp, applyAt]
          rw [if_pos (by simp), listSetAt_prefix n pre o os]
        simp only [applyOps, h1]
        have hres := ih os ns (pre ++ [n])
          (by simp only [List.length_cons] at hm ⊢; omega)
        simpa [List.append_assoc, List.length_append] using hres

theorem diffOps_roundtrip_fuel : ∀ (m : Nat) (a b : Json), sizeOf a + sizeOf b ≤ m →
    Json.isCanon a = true → Json.isCanon b = true →
    applyOps a (diffOps a b) = some b := by
  intro m
  induction m with
  | zero =>
    intro a b hsz _ _
    exfalso
    have : 0 < sizeOf a := by cases a <;> simp
    omega
  | succ m ih =>
    intro a b hsz hca hcb
    cases a <;> cases b
    case obj.obj fo fn =>
      have h := diffFields_roundtrip (fo.length + fn.length) fo fn []
        le_rfl
        (fun v w hv hw => by
          obtain ⟨k, hk⟩ := hv
          obtain ⟨k2, hk2⟩ := hw
          apply ih v w
          · have h1 := List.sizeOf_lt_of_mem hk
            have h2 := List.sizeOf_lt_of_mem hk2
            have e1 : sizeOf (k, v) = 1 + sizeOf k + sizeOf v := rfl
            have e2 : sizeOf (k2, w) = 1 + sizeOf k2 + sizeOf w := rfl
            have e3 : sizeOf (Json.obj fo) = 1 + sizeOf fo := by simp
            have e4 : sizeOf (Json.obj fn) = 1 + sizeOf fn := by simp
            omega
          · simp only [Json.isCanon, Bool.and_eq_true] at hca
            exact isCanonFields_mem fo hca.2 k v hk
          · simp only [Json.isCanon, Bool.and_eq_true] at hcb
            exact isCanonFields_mem fn hcb.2 k2 w hk2)
        (by
          simp only [Json.isCanon, Bool.and_eq_true] at hca
          simpa using strictSorted_pairwise _ hca.1)
        (by
          simp only [Json.isCanon, Bool.and_eq_true] at hcb
          simpa using strictSorted_pairwise _ hcb.1)
      simp only [diffOps]
      simpa using h
    case arr.arr xo xn =>
      have h := diffArr_roundtrip (xo.length + xn.length) xo xn [] le_rfl
      simp only [diffOps]
      simpa using h
    all_goals
      simp only [diffOps]
      split
      · simp_all [applyOps]
      · simp [applyOps, applyOp, applyAt]

/-- C6: applying the operation sequence of `diffOps a b` to `a`, with the
object and positional array patch semantics of section 4.3, reproduces
`b` exactly, for all documents in canonical (recursively key-sorted)
form - the canonical representatives are in bijection with JSON documents,
whose object key order carries no content. -/
theorem diff_roundtrip (a b : Json) (ha : Json.isCanon a = true)
    (hb : Json.isCanon b = true) :
    applyOps a (diffOps a b) = some b :=
  diffOps_roundtrip_fuel (sizeOf a + sizeOf b) a b le_rfl ha hb

theorem diff_roundtrip_witness :
    (Json.isCanon (Json.obj [("a", .num 1), ("b", .arr [.num 1, .num 2, .num 3])]) = true ∧
     Json.isCanon (Json.obj [("b", .arr [.num 1, .num 5]), ("c", .str "x")]) = true) ∧
    applyOps (Json.obj [("a", .num 1), ("b", .arr [.num 1, .num 2, .num 3])])
        (diffOps (Json.obj [("a", .num 1), ("b", .arr [.num 1, .num 2, .num 3])])
          (Json.obj [("b", .arr [.num 1, .num 5]), ("c", .str "x")]))
      = some (Json.obj [("b", .arr [.num 1, .num 5]), ("c", .str "x")]) :=
  ⟨⟨by decide, by decide⟩,
    diff_roundtrip _ _ (by decide) (by decide)⟩

theorem diffArr_kinds : ∀ (os : List Json) (i : Nat) (ns : List Json),
    ∀ o ∈ diffArr i os ns,
    o.kind = .add ∨ o.kind = .remove ∨ o.kind = .replace := by
  intro os
  induction os with
  | nil =>
    intro i ns
    induction ns generalizing i with
    | nil => intro o ho; simp [diffArr] at ho
    | cons n t ih =>
      intro o ho
      simp only [diffArr] at ho
      rcases List.mem_cons.mp ho with he | ht
      · subst he; simp
      · exact ih (i + 1) o ht
  | cons x os ih =>
    intro i ns
    cases ns with
    | nil =>
      intro o ho
      simp only [diffArr] at ho
      rcases List.mem_append.mp ho with h1 | h1
      · exact ih (i + 1) [] o h1
      · simp only [List.mem_singleton] at h1
        subst h1; simp
    | cons n t =>
      intro o ho
      simp only [diffArr] at ho
      rcases List.mem_append.mp ho with h1 | h1
      · by_cases he : x = n
        · rw [if_pos he] at h1; simp at h1
        · rw [if_neg he] at h1
          simp only [List.mem_singleton] at h1
          subst h1; simp
      · exact ih (i + 1) t o h1

theorem diffFields_kinds : ∀ (m : Nat) (os ns : List (String × Json)),
    os.length + ns.length ≤ m →
    (∀ v w : Json, (∃ k, (k, v) ∈ os) → (∃ k2, (k2, w) ∈ ns) →
      ∀ o ∈ diffOps v w, o.kind = .add ∨ o.kind = .remove ∨ o.kind = .replace) →
    ∀ o ∈ diffFields os ns,
    o.kind = .add ∨ o.kind = .remove ∨ o.kind = .replace := by
  intro m
  induction m with
  | zero =>
    intro os ns hm _ o ho
    cases os with
    | nil =>
      cases ns with
      | nil => simp [diffFields] at ho
      | cons a b => simp at hm
    | cons a b => simp at hm
  | succ m ih =>
    intro os ns hm hIH o ho
    match os, ns with
    | [], [] => simp [diffFields] at ho
    | [], (k, v) :: ns =>
      simp only [diffFields] at ho
      rcases List.mem_cons.mp ho with he | ht
      · subst he; simp
      · exact ih [] ns (by simp only [List.length_nil, List.length_cons] at hm ⊢; omega)
          (fun v2 w2 hv2 _ => by simp at hv2) o ht
    | (k, v) :: os, [] =>
      simp only [diffFields] at ho
      rcases List.mem_cons.mp ho with he | ht
      · subst he; simp
      · exact ih os [] (by simp only [List.length_nil, List.length_cons] at hm ⊢; omega)
          (fun v2 w2 _ hw2 => by simp at hw2) o ht
    | (ko, vo) :: os, (kn, vn) :: ns =>
      simp only [diffFields] at ho
      by_cases he : ko = kn
      · rw [if_pos he] at ho
        rcases List.mem_append.mp ho with h1 | h1
        · obtain ⟨u, hu, he2⟩ := List.mem_map.mp h1
          have := hIH vo vn ⟨ko, by simp⟩ ⟨kn, by simp⟩ u hu
          rw [← he2]
          simpa [Op.prepend] using this
        · exact ih os ns (by simp only [List.length_cons] at hm ⊢; omega)
            (fun v2 w2 hv2 hw2 => hIH v2 w2
              (by obtain ⟨k2, hk2⟩ := hv2; exact ⟨k2, by simp [hk2]⟩)
              (by obtain ⟨k2, hk2⟩ := hw2; exact ⟨k2, by simp [hk2]⟩)) o h1
      · rw [if_neg he] at ho
        by_cases hle : strLe ko kn = true
        · rw [if_pos hle] at ho
          rcases List.mem_cons.mp ho with h1 | h1
          · subst h1; simp
          · exact ih os ((kn, vn) :: ns) (by simp only [List.length_cons] at hm ⊢; omega)
              (fun v2 w2 hv2 hw2 => hIH v2 w2
                (by obtain ⟨k2, hk2⟩ := hv2; exact ⟨k2, by simp [hk2]⟩) hw2) o h1
        · rw [if_neg hle] at ho
          rcases List.mem_cons.mp ho with h1 | h1
          · subst h1; simp
          · exact ih ((ko, vo) :: os) ns (by simp only [List.length_cons] at hm ⊢; omega)
              (fun v2 w2 hv2 hw2 => hIH v2 w2 hv2
                (by obtain ⟨k2, hk2⟩ := hw2; exact ⟨k2, by simp [hk2]⟩)) o h1

theorem diffOps_kinds_fuel : ∀ (m : Nat) (a b : Json), sizeOf a + sizeOf b ≤ m →
    ∀ o ∈ diffOps a b,
    o.kind = .add ∨ o.kind = .remove ∨ o.kind = .replace := by
  intro m
  induction m with
  | zero =>
    intro a b hsz o _
    exfalso
    have : 0 < sizeOf a := by cases a <;> simp
    omega
  | succ m ih =>
    intro a b hsz o ho
    cases a <;> cases b <;> simp only [diffOps] at ho
    case obj.obj fo fn =>
      refine diffFields_kinds (fo.length + fn.length) fo fn le_rfl ?_ o ho
      intro v w hv hw o2 ho2
      obtain ⟨k, hk⟩ := hv
      obtain ⟨k2, hk2⟩ := hw
      apply ih v w ?_ o2 ho2
      have h1 := List.sizeOf_lt_of_mem hk
      have h2 := List.sizeOf_lt_of_mem hk2
      have e1 : sizeOf (k, v) = 1 + sizeOf k + sizeOf v := rfl
      have e2 : sizeOf (k2, w) = 1 + sizeOf k2 + sizeOf w := rfl
      have e3 : sizeOf (Json.obj fo) = 1 + sizeOf fo := by simp
      have e4 : sizeOf (Json.obj fn) = 1 + sizeOf fn := by simp
      omega
    case arr.arr xo xn =>
      exact diffArr_kinds xo 0 xn o ho
    all_goals exact Or.inr (Or.inr (mem_if_replace ho))

theorem diffOps_kinds (a b : Json) : ∀ o ∈ diffOps a b,
    o.kind = .add ∨ o.kind = .remove ∨ o.kind = .replace :=
  diffOps_kinds_fuel (sizeOf a + sizeOf b) a b le_rfl

theorem count_split : ∀ ops : List Op,
    (∀ o ∈ ops, o.kind = .add ∨ o.kind = .remove ∨ o.kind = .replace) →
    ((ops.filter (fun o => o.kind == OpKind.add)).length +
     (ops.filter (fun o => o.kind == OpKind.remove)).length +
     (ops.filter (fun o => o.kind == OpKind.replace || o.kind == OpKind.copy ||
       o.kind == OpKind.move)).length) = ops.length ∧
    (ops.filter (fun o => o.kind == OpKind.replace || o.kind == OpKind.copy ||
       o.kind == OpKind.move)) = ops.filter (fun o => o.kind == OpKind.replace) := by
  intro ops
  induction ops with
  | nil => intro _; exact ⟨rfl, rfl⟩
  | cons o t ih =>
    intro h
    obtain ⟨ih1, ih2⟩ := ih (fun o2 ho2 => h o2 (by simp [ho2]))
    rcases h o (by simp) with hk | hk | hk <;>
      simp only [List.filter_cons, hk] <;>
      simp_all <;>
      omega

/-- C9: on the output of the diff, `categorizeChanges` counts `add` ops
as additions, `remove` ops as deletions and `replace` ops as
modifications (the `copy`/`move` alternatives of its modification filter
never occur in diff output), and the three counts sum exactly to
`countChanges`, the total number of operations. -/
theorem categorize_diff_counts (a b : Json) :
    (categorizeChanges (diffOps a b)).additions + (categorizeChanges (diffOps a b)).deletions +
      (categorizeChanges (diffOps a b)).modifications = countChanges (diffOps a b) ∧
    (categorizeChanges (diffOps a b)).additions
      = ((diffOps a b).filter (fun o => o.kind == OpKind.add)).length ∧
    (categorizeChanges (diffOps a b)).deletions
      = ((diffOps a b).filter (fun o => o.kind == OpKind.remove)).length ∧
    (categorizeChanges (diffOps a b)).modifications
      = ((diffOps a b).filter (fun o => o.kind == OpKind.replace)).length := by
  obtain ⟨h1, h2⟩ := count_split (diffOps a b) (diffOps_kinds a b)
  refine ⟨?_, rfl, rfl, ?_⟩
  · simp only [categorizeChanges, countChanges]
    exact h1
  · simp only [categorizeChanges]
    rw [h2]
